import Mathlib

/-!
Operational model of the in-memory publish/subscribe bus implemented in
`subpub/subpub.go` of SaidDjapbarov/subpub-service.

The Go bus keeps a map `subject → []*subscription` guarded by an RW mutex,
a `closed` flag, and a `sync.WaitGroup` counting worker goroutines.  Each
subscription owns a buffered channel `ch` of capacity 64, a user callback
`cb`, a `sync.Once` unsubscribe guard and a `sendMu` mutex serializing
enqueues.  We model the shared state explicitly and the concurrency as an
interleaving of atomic actions (a trace); goroutine-local progress (the
worker loop body, the detached blocking-send goroutine, the `wg.Wait`
select in `Close`) becomes separate actions with enabling guards that
mirror the Go blocking conditions.  Pointer identity of `*subscription`
is modelled by an index into an ever-growing store.
-/

namespace Subpub

/-- Capacity of each subscription's buffered delivery channel:
`make(chan interface{}, 64)` in `Subscribe`. -/
def queueCap : Nat := 64

/-- One subscriber: the Go `subscription` struct.  `queue`/`qClosed` model
the buffered channel `ch`; `pending` models the detached goroutine spawned
by `enqueue` when the buffer is full, parked on a blocking send while
holding `sendMu` (`pending.isSome` exactly when `sendMu` is held by such a
goroutine); `unsubbed` models the `sync.Once` guard having fired;
`workerDone` records that the worker goroutine returned (its deferred
`wg.Done` ran).  `hid` tags the user callback `cb`, which the bus treats
as opaque.  The last three fields are observation histories: `delivered`
is the sequence of messages passed to `cb` by the worker, `entered` the
sequence of messages that entered `ch`, and `pubLog` the sequence of
messages accepted by `enqueue` (fast-path send or parked overflow), each
in order. -/
structure Subscription (Msg : Type) where
  subject : String
  hid : Nat
  queue : List Msg
  qClosed : Bool
  pending : Option Msg
  unsubbed : Bool
  workerDone : Bool
  delivered : List Msg
  entered : List Msg
  pubLog : List Msg
deriving DecidableEq

/-- The bus: the Go `subPub` struct.  `subs` is the subject map (an
association list; Go map iteration order is immaterial to every property
proved here), `closed` the shutdown flag, `store` the heap of all
subscriptions ever created (an index plays the role of the Go pointer;
`store` only grows, mirroring the fact that a `*subscription` stays valid
after removal from the map).  The `sync.WaitGroup` is derived state: all
workers are done when every stored subscription has `workerDone`.
`closedOk` records that some `Close` call returned nil, `crashed` that an
unrecovered panic escaped (Go: the process dies), `pubReturns` the
results of the `Publish` calls in order. -/
structure SubPub (Msg : Type) where
  subs : List (String × List Nat)
  closed : Bool
  store : List (Subscription Msg)
  closedOk : Bool
  crashed : Bool
  pubReturns : List Bool
deriving DecidableEq

/-- `NewSubPub()`: the freshly created bus. -/
def initBus {Msg : Type} : SubPub Msg :=
  { subs := [], closed := false, store := [], closedOk := false,
    crashed := false, pubReturns := [] }

/-! ### Association-list operations for the subject map -/

/-- Map lookup, `sp.subs[subject]` with the `ok` flag as `Option`. -/
def mapLookup : List (String × List Nat) → String → Option (List Nat)
  | [], _ => none
  | (k, v) :: rest, subj => if k = subj then some v else mapLookup rest subj

/-- Map assignment `sp.subs[subject] = l`: replaces the first entry with
this key, or appends a fresh entry. -/
def mapSet : List (String × List Nat) → String → List Nat → List (String × List Nat)
  | [], subj, l => [(subj, l)]
  | (k, v) :: rest, subj, l =>
    if k = subj then (subj, l) :: rest else (k, v) :: mapSet rest subj l

/-- Map deletion `delete(sp.subs, subject)`: removes the first entry with
this key. -/
def mapErase : List (String × List Nat) → String → List (String × List Nat)
  | [], _ => []
  | (k, v) :: rest, subj => if k = subj then rest else (k, v) :: mapErase rest subj

/-! ### Subscribe -/

/-- The subscription freshly built by `Subscribe`. -/
def initSub {Msg : Type} (subject : String) (hid : Nat) : Subscription Msg :=
  { subject := subject, hid := hid, queue := [], qClosed := false,
    pending := none, unsubbed := false, workerDone := false,
    delivered := [], entered := [], pubLog := [] }

/-- `(sp *subPub) Subscribe(subject, cb)`: under the write lock, reject if
closed, otherwise append a fresh subscription to the subject's entry and
start its worker.  Returns the handle (`some id`) or the `ErrClosed`
failure (`none`). -/
def subscribe {Msg : Type} (b : SubPub Msg) (subject : String) (hid : Nat) :
    Option Nat × SubPub Msg :=
  if b.closed then (none, b)
  else
    let id := b.store.length
    (some id,
     { b with
       subs := mapSet b.subs subject ((mapLookup b.subs subject).getD [] ++ [id]),
       store := b.store ++ [initSub subject hid] })

/-! ### Enqueue and Publish -/

/-- Result of one `enqueue` call, as seen by the calling goroutine.
`sent`: the non-blocking `select` send succeeded.  `parked`: the buffer
was full, a detached goroutine now blocks on the send holding `sendMu`.
`panicked`: the channel was already closed, so the send case of the
`select` proceeds by panicking — and on this fast path there is no
`recover`, the panic escapes.  `blocked`: `sendMu` is held by a parked
goroutine, so `s.sendMu.Lock()` blocks and the call does not return. -/
inductive EnqRes where
  | sent
  | parked
  | panicked
  | blocked
deriving DecidableEq

/-- `(s *subscription) enqueue(msg)`.  Faithful to the Go semantics:
a send on a closed channel is always ready in a `select` and proceeds by
panicking, so when `qClosed` the fast path panics (no `recover` there);
otherwise a free buffer slot gives an immediate send, and a full buffer
parks the message in a detached goroutine that keeps holding `sendMu`. -/
def enqueue {Msg : Type} (s : Subscription Msg) (m : Msg) : EnqRes × Subscription Msg :=
  if s.pending.isSome then
    (.blocked, s)
  else if s.qClosed then
    (.panicked, s)
  else if s.queue.length < queueCap then
    (.sent, { s with queue := s.queue ++ [m],
                     entered := s.entered ++ [m],
                     pubLog := s.pubLog ++ [m] })
  else
    (.parked, { s with pending := some m, pubLog := s.pubLog ++ [m] })

/-- Result of a `Publish` call.  `ok` is the nil return; `errClosed` the
`ErrClosed` return; `panicked` means an enqueue's fast path hit a closed
channel and the unrecovered panic crashed the call; `blocked` means the
call has not returned (it is sitting in `s.sendMu.Lock()` of some
subscription whose parked overflow send has not completed). -/
inductive PubRes where
  | ok
  | errClosed
  | panicked
  | blocked
deriving DecidableEq

/-- The fan-out loop of `Publish`: `for _, sub := range subsCopy {
sub.enqueue(msg) }`, threading the subscription store. -/
def fanout {Msg : Type} (m : Msg) :
    List (Subscription Msg) → List Nat → PubRes × List (Subscription Msg)
  | store, [] => (.ok, store)
  | store, id :: rest =>
    match store[id]? with
    | none => fanout m store rest
    | some s =>
      match enqueue s m with
      | (.sent, s') => fanout m (store.set id s') rest
      | (.parked, s') => fanout m (store.set id s') rest
      | (.panicked, s') => (.panicked, store.set id s')
      | (.blocked, _) => (.blocked, store)

/-- `(sp *subPub) Publish(subject, msg)`: reject if closed, otherwise
snapshot the subject's subscription list under the read lock and enqueue
the message to each element of the snapshot. -/
def publish {Msg : Type} (b : SubPub Msg) (subject : String) (m : Msg) :
    PubRes × SubPub Msg :=
  if b.closed then (.errClosed, b)
  else
    let snapshot := (mapLookup b.subs subject).getD []
    match fanout m b.store snapshot with
    | (.panicked, store') => (.panicked, { b with store := store', crashed := true })
    | (r, store') => (r, { b with store := store' })

/-! ### Worker and the parked overflow goroutine -/

/-- Result of giving the worker goroutine a chance to run once. -/
inductive WorkRes where
  | invoked
  | exited
  | waiting
deriving DecidableEq

/-- One iteration of `worker`'s `for msg := range s.ch` loop: receive the
next buffered message and invoke `cb` with it; when the channel is closed
and drained, the loop ends and the deferred `wg.Done` runs.  An already
exited worker does nothing. -/
def workerStep {Msg : Type} (s : Subscription Msg) : WorkRes × Subscription Msg :=
  if s.workerDone then (.waiting, s)
  else
    match s.queue with
    | m :: rest => (.invoked, { s with queue := rest, delivered := s.delivered ++ [m] })
    | [] =>
      if s.qClosed then (.exited, { s with workerDone := true })
      else (.waiting, s)

/-- Progress of the detached goroutine parked in `enqueue`'s overflow
branch: its blocking `s.ch <- msg` completes once a buffer slot frees up
(releasing `sendMu`), or — if the channel was closed meanwhile — panics,
is caught by its `recover`, and the message is silently dropped (again
releasing `sendMu`).  While the buffer is still full and open it keeps
waiting. -/
def resolvePending {Msg : Type} (s : Subscription Msg) : Subscription Msg :=
  match s.pending with
  | none => s
  | some m =>
    if s.qClosed then { s with pending := none }
    else if s.queue.length < queueCap then
      { s with queue := s.queue ++ [m], entered := s.entered ++ [m], pending := none }
    else s

/-! ### Unsubscribe -/

/-- The swap-remove of `unsubscribe`: find the first occurrence of `x`,
overwrite it with the last element, truncate by one; leave the list
unchanged if `x` does not occur. -/
def swapRemove : List Nat → Nat → List Nat
  | [], _ => []
  | [a], x => if a = x then [] else [a]
  | a :: b :: rest, x =>
    if a = x then (b :: rest).getLast (by simp) :: (b :: rest).dropLast
    else a :: swapRemove (b :: rest) x

/-- `close(s.ch)`: marks the channel closed; a goroutine parked on a
blocking send into it panics, the panic is caught by its `recover`, and
the parked message is dropped while `sendMu` is released. -/
def closeQueue {Msg : Type} (s : Subscription Msg) : Subscription Msg :=
  { s with qClosed := true, pending := none }

/-- `(s *subscription) unsubscribe()`: guarded by `sync.Once`, so a repeat
call is a no-op.  The first call removes the subscription from its
subject's map entry (swap-remove; the entry is deleted when it becomes
empty) and then closes its channel. -/
def unsubscribe {Msg : Type} (b : SubPub Msg) (id : Nat) : SubPub Msg :=
  match b.store[id]? with
  | none => b
  | some s =>
    if s.unsubbed then b
    else
      let subs' :=
        match mapLookup b.subs s.subject with
        | none => b.subs
        | some list =>
          let list' := swapRemove list id
          if list' = [] then mapErase b.subs s.subject
          else mapSet b.subs s.subject list'
      { b with subs := subs',
               store := b.store.set id (closeQueue { s with unsubbed := true }) }

/-! ### Close -/

/-- Result of a `Close` call. -/
inductive CloseRes where
  | ok
  | errClosed
  | ctxErr
deriving DecidableEq

/-- All ids stored anywhere in the subject map. -/
def allIds (m : List (String × List Nat)) : List Nat := (m.map Prod.snd).flatten

/-- `wg.Wait()` would return: every worker ever started has finished. -/
def allWorkersDone {Msg : Type} (b : SubPub Msg) : Bool :=
  b.store.all (·.workerDone)

/-- The synchronous part of `(sp *subPub) Close(ctx)`: a second call sees
`closed` and returns `ErrClosed` at once (`some .errClosed`); the first
call flips `closed` under the write lock, captures every remaining
subscription, clears the map, unsubscribes each captured subscription
outside the lock, and then starts waiting on `wg.Wait()` versus
`ctx.Done()` (result still pending: `none`). -/
def closeOp {Msg : Type} (b : SubPub Msg) : Option CloseRes × SubPub Msg :=
  if b.closed then (some .errClosed, b)
  else
    let ids := allIds b.subs
    let b1 := { b with closed := true, subs := ([] : List (String × List Nat)) }
    (none, ids.foldl unsubscribe b1)

/-! ### The interleaving semantics -/

/-- The atomic actions whose interleavings model the concurrent runs of
the bus.  `work id` and `resolve id` are scheduling steps of subscription
`id`'s worker goroutine and parked overflow goroutine; a handler that
blocks forever is a trace in which the corresponding `work id` actions
simply stop occurring.  `closeRetOk` is the waiting `Close` call's select
choosing the `done` channel, which is only possible once `wg.Wait()` has
returned, i.e. when every worker has finished. -/
inductive Action (Msg : Type) where
  | sub (subject : String) (hid : Nat)
  | pub (subject : String) (m : Msg)
  | unsub (id : Nat)
  | work (id : Nat)
  | resolve (id : Nat)
  | closeBegin
  | closeRetOk
deriving DecidableEq

/-- Effect of one atomic action on the bus state. -/
def applyAction {Msg : Type} (b : SubPub Msg) : Action Msg → SubPub Msg
  | .sub subject hid => (subscribe b subject hid).2
  | .pub subject m =>
    let r := publish b subject m
    { r.2 with pubReturns := b.pubReturns ++ [decide (r.1 = PubRes.ok)] }
  | .unsub id => unsubscribe b id
  | .work id =>
    match b.store[id]? with
    | none => b
    | some s => { b with store := b.store.set id (workerStep s).2 }
  | .resolve id =>
    match b.store[id]? with
    | none => b
    | some s => { b with store := b.store.set id (resolvePending s) }
  | .closeBegin => (closeOp b).2
  | .closeRetOk =>
    if b.closed && allWorkersDone b then { b with closedOk := true } else b

/-- Run a trace of actions from a state. -/
def run {Msg : Type} (b : SubPub Msg) (t : List (Action Msg)) : SubPub Msg :=
  t.foldl applyAction b

/-! ### Draining a single subscription -/

/-- One scheduling round for a single subscription: let its parked
overflow goroutine finish its send if it can, then let its worker receive
once. -/
def drainStep {Msg : Type} (s : Subscription Msg) : Subscription Msg :=
  (workerStep (resolvePending s)).2

/-- Iterate `drainStep`. -/
def drainN {Msg : Type} : Nat → Subscription Msg → Subscription Msg
  | 0, s => s
  | n + 1, s => drainN n (drainStep s)

/-! ### A racy interleaving of Publish against Unsubscribe

`Publish` releases the read lock after copying the snapshot and only then
runs the enqueue loop, so an `Unsubscribe` can close a snapshotted
subscription's channel between the copy and the `enqueue` call.  This
function is `Publish` with exactly that interleaving: snapshot first,
then the concurrent `unsubscribe uid`, then the fan-out over the stale
snapshot. -/
def publishRace {Msg : Type} (b : SubPub Msg) (subject : String) (m : Msg)
    (uid : Nat) : PubRes × SubPub Msg :=
  if b.closed then (.errClosed, b)
  else
    let snapshot := (mapLookup b.subs subject).getD []
    let b' := unsubscribe b uid
    match fanout m b'.store snapshot with
    | (.panicked, store') => (.panicked, { b' with store := store', crashed := true })
    | (r, store') => (r, { b' with store := store' })

/-! ### Lemmas about the association-list subject map -/

theorem mapLookup_eq_none_iff (m : List (String × List Nat)) (k : String) :
    mapLookup m k = none ↔ k ∉ m.map Prod.fst := by
  induction m with
  | nil => simp [mapLookup]
  | cons kv rest ih =>
    obtain ⟨k', v⟩ := kv
    by_cases h : k' = k
    · subst h; simp [mapLookup]
    · simp [mapLookup, h, ih, Ne.symm h]

theorem mapLookup_mapSet_self (m : List (String × List Nat)) (k : String) (l : List Nat) :
    mapLookup (mapSet m k l) k = some l := by
  induction m with
  | nil => simp [mapSet, mapLookup]
  | cons kv rest ih =>
    obtain ⟨k', v⟩ := kv
    by_cases h : k' = k
    · simp [mapSet, h, mapLookup]
    · simp [mapSet, h, mapLookup, ih]

theorem mapLookup_mapSet_ne (m : List (String × List Nat)) {k k' : String} (l : List Nat)
    (h : k' ≠ k) : mapLookup (mapSet m k l) k' = mapLookup m k' := by
  induction m with
  | nil => simp [mapSet, mapLookup, Ne.symm h]
  | cons kv rest ih =>
    obtain ⟨k'', v⟩ := kv
    by_cases hk : k'' = k
    · subst hk; simp [mapSet, mapLookup, Ne.symm h]
    · simp [mapSet, hk, mapLookup, ih]

theorem mapLookup_mapErase_ne (m : List (String × List Nat)) {k k' : String}
    (h : k' ≠ k) : mapLookup (mapErase m k) k' = mapLookup m k' := by
  induction m with
  | nil => simp [mapErase]
  | cons kv rest ih =>
    obtain ⟨k'', v⟩ := kv
    by_cases hk : k'' = k
    · subst hk; simp [mapErase, mapLookup, Ne.symm h]
    · simp [mapErase, hk, mapLookup, ih]

theorem mapLookup_mapErase_self (m : List (String × List Nat)) (k : String)
    (hnd : (m.map Prod.fst).Nodup) : mapLookup (mapErase m k) k = none := by
  induction m with
  | nil => simp [mapErase, mapLookup]
  | cons kv rest ih =>
    obtain ⟨k', v⟩ := kv
    simp only [List.map_cons, List.nodup_cons] at hnd
    by_cases h : k' = k
    · subst h
      simp only [mapErase, if_pos rfl]
      exact (mapLookup_eq_none_iff rest k').mpr hnd.1
    · simp [mapErase, h, mapLookup, ih hnd.2]

theorem keys_mapSet_some (m : List (String × List Nat)) {k : String} (l v : List Nat)
    (h : mapLookup m k = some v) :
    (mapSet m k l).map Prod.fst = m.map Prod.fst := by
  induction m with
  | nil => simp [mapLookup] at h
  | cons kv rest ih =>
    obtain ⟨k', v'⟩ := kv
    by_cases hk : k' = k
    · subst hk; simp [mapSet]
    · simp only [mapLookup, if_neg hk] at h
      simp [mapSet, hk, ih h]

theorem keys_mapSet_none (m : List (String × List Nat)) {k : String} (l : List Nat)
    (h : mapLookup m k = none) :
    (mapSet m k l).map Prod.fst = m.map Prod.fst ++ [k] := by
  induction m with
  | nil => simp [mapSet]
  | cons kv rest ih =>
    obtain ⟨k', v'⟩ := kv
    by_cases hk : k' = k
    · subst hk; simp [mapLookup] at h
    · simp only [mapLookup, if_neg hk] at h
      simp [mapSet, hk, ih h]

theorem keys_mapErase_subset (m : List (String × List Nat)) (k : String) :
    ∀ x, x ∈ (mapErase m k).map Prod.fst → x ∈ m.map Prod.fst := by
  induction m with
  | nil => simp [mapErase]
  | cons kv rest ih =>
    obtain ⟨k', v⟩ := kv
    by_cases hk : k' = k
    · subst hk
      intro x hx
      have hthis : mapErase ((k', v) :: rest) k' = rest := by simp [mapErase]
      rw [hthis] at hx
      simp only [List.map_cons, List.mem_cons]
      exact Or.inr hx
    · intro x hx
      simp only [mapErase, if_neg hk, List.map_cons, List.mem_cons] at hx
      rcases hx with h | h
      · simp [h]
      · simp [ih x h]

theorem nodup_keys_mapErase (m : List (String × List Nat)) (k : String)
    (hnd : (m.map Prod.fst).Nodup) : ((mapErase m k).map Prod.fst).Nodup := by
  induction m with
  | nil => simp [mapErase]
  | cons kv rest ih =>
    obtain ⟨k', v⟩ := kv
    simp only [List.map_cons, List.nodup_cons] at hnd
    by_cases hk : k' = k
    · subst hk; simpa [mapErase] using hnd.2
    · simp only [mapErase, if_neg hk, List.map_cons, List.nodup_cons]
      exact ⟨fun hmem => hnd.1 (keys_mapErase_subset rest k _ hmem), ih hnd.2⟩

theorem mem_allIds_of_lookup (m : List (String × List Nat)) {k : String} {l : List Nat}
    (h : mapLookup m k = some l) {id : Nat} (hid : id ∈ l) : id ∈ allIds m := by
  induction m with
  | nil => simp [mapLookup] at h
  | cons kv rest ih =>
    obtain ⟨k', v⟩ := kv
    by_cases hk : k' = k
    · subst hk
      simp only [mapLookup, if_true] at h
      injection h with h
      subst h
      simp [allIds, hid]
    · simp only [mapLookup, if_neg hk] at h
      simp only [allIds, List.map_cons, List.flatten_cons, List.mem_append]
      exact Or.inr (by simpa [allIds] using ih h)

/-! ### Lemmas about swap-removal -/

theorem swapRemove_of_not_mem {l : List Nat} {x : Nat} (h : x ∉ l) :
    swapRemove l x = l := by
  induction l with
  | nil => rfl
  | cons a rest ih =>
    cases rest with
    | nil =>
      simp only [List.mem_singleton] at h
      have hax : ¬ a = x := fun hax => h (by simp [hax])
      simp [swapRemove, hax]
    | cons b rest' =>
      simp only [List.mem_cons, not_or] at h
      have hax : ¬ a = x := fun hax => h.1 hax.symm
      simp only [swapRemove, if_neg hax]
      have : x ∉ b :: rest' := by simp [not_or, h.2.1, h.2.2]
      rw [ih this]

theorem perm_swapRemove {l : List Nat} {x : Nat} (h : x ∈ l) :
    List.Perm (x :: swapRemove l x) l := by
  induction l with
  | nil => simp at h
  | cons a rest ih =>
    cases rest with
    | nil =>
      simp only [List.mem_singleton] at h
      subst h
      simp [swapRemove]
    | cons b rest' =>
      by_cases hax : a = x
      · subst hax
        have hrw : swapRemove (a :: b :: rest') a
            = (b :: rest').getLast (by simp) :: (b :: rest').dropLast := by
          simp [swapRemove]
        rw [hrw]
        refine List.Perm.cons a ?_
        have hne : (b :: rest') ≠ [] := by simp
        have h1 := @List.perm_append_comm ℕ [(b :: rest').getLast hne] ((b :: rest').dropLast)
        rw [List.singleton_append] at h1
        have h2 := List.dropLast_append_getLast hne
        rw [h2] at h1
        exact h1
      · have hx : x ∈ b :: rest' := by
          rcases List.mem_cons.mp h with h' | h'
          · exact absurd h'.symm hax
          · exact h'
        have hrw : swapRemove (a :: b :: rest') x = a :: swapRemove (b :: rest') x := by
          simp [swapRemove, hax]
        rw [hrw]
        exact List.Perm.trans (List.Perm.swap a x _) (List.Perm.cons a (ih hx))

theorem mem_swapRemove_iff {l : List Nat} {x : Nat} (hnd : l.Nodup) (y : Nat) :
    y ∈ swapRemove l x ↔ (y ∈ l ∧ y ≠ x) := by
  by_cases hx : x ∈ l
  · have hperm := perm_swapRemove hx
    have hnd' : (x :: swapRemove l x).Nodup := hperm.nodup_iff.mpr hnd
    simp only [List.nodup_cons] at hnd'
    constructor
    · intro hy
      refine ⟨hperm.mem_iff.mp (List.mem_cons_of_mem x hy), ?_⟩
      rintro rfl
      exact hnd'.1 hy
    · rintro ⟨hyl, hyx⟩
      have := hperm.mem_iff.mpr hyl
      rcases List.mem_cons.mp this with h | h
      · exact absurd h hyx
      · exact h
  · rw [swapRemove_of_not_mem hx]
    constructor
    · intro hy
      refine ⟨hy, ?_⟩
      rintro rfl
      exact hx hy
    · exact fun h => h.1

theorem nodup_swapRemove {l : List Nat} {x : Nat} (hnd : l.Nodup) :
    (swapRemove l x).Nodup := by
  by_cases hx : x ∈ l
  · have := (perm_swapRemove hx).nodup_iff.mpr hnd
    exact (List.nodup_cons.mp this).2
  · rw [swapRemove_of_not_mem hx]; exact hnd

theorem length_swapRemove {l : List Nat} {x : Nat} (h : x ∈ l) :
    (swapRemove l x).length + 1 = l.length := by
  have := (perm_swapRemove h).length_eq
  simpa [Nat.add_comm] using this

theorem swapRemove_eq_nil_iff {l : List Nat} {x : Nat} (h : x ∈ l) :
    swapRemove l x = [] ↔ l = [x] := by
  constructor
  · intro hnil
    have hlen := length_swapRemove h
    rw [hnil] at hlen
    simp at hlen
    cases l with
    | nil => simp at h
    | cons a rest =>
      simp at hlen
      subst hlen
      simp only [List.mem_singleton] at h
      simp [h]
  · rintro rfl
    simp [swapRemove]

/-! ### The per-subscription invariant -/

/-- Ties the observation histories of one subscription to its channel
state: what the worker has delivered plus what is still buffered is
exactly what entered the channel, in order; while the channel is open,
what entered plus the parked overflow message is exactly what `enqueue`
accepted; once the channel is closed the parked message (if any) has been
dropped, so what entered is merely a prefix of what was accepted. -/
structure SubInv {Msg : Type} (s : Subscription Msg) : Prop where
  deq : s.delivered ++ s.queue = s.entered
  closedPending : s.qClosed = true → s.pending = none
  liveLog : s.qClosed = false → s.entered ++ s.pending.toList = s.pubLog
  deadLog : s.qClosed = true → ∃ rest, s.entered ++ rest = s.pubLog

theorem subInv_entered_le_pubLog {Msg : Type} {s : Subscription Msg} (h : SubInv s) :
    ∃ rest, s.entered ++ rest = s.pubLog := by
  cases hc : s.qClosed with
  | true => exact h.deadLog hc
  | false => exact ⟨s.pending.toList, h.liveLog hc⟩

theorem subInv_initSub {Msg : Type} (subject : String) (hid : Nat) :
    SubInv (initSub subject hid : Subscription Msg) := by
  constructor <;> simp [initSub]

theorem subInv_enqueue {Msg : Type} {s : Subscription Msg} (h : SubInv s) (m : Msg) :
    SubInv (enqueue s m).2 := by
  unfold enqueue
  split_ifs with h1 h2 h3
  · exact h
  · exact h
  · have hp : s.pending = none := by
      cases hp : s.pending with
      | none => rfl
      | some v => rw [hp] at h1; simp at h1
    have hc : s.qClosed = false := by
      cases hc : s.qClosed with
      | false => rfl
      | true => rw [hc] at h2; simp at h2
    refine ⟨?_, ?_, ?_, ?_⟩ <;> simp only
    · rw [← List.append_assoc, h.deq]
    · intro hcc; rw [hc] at hcc; cases hcc
    · intro _
      have := h.liveLog hc
      rw [hp] at this
      simp only [Option.toList_none, List.append_nil] at this
      rw [hp]
      simp [this]
    · intro hcc; rw [hc] at hcc; cases hcc
  · have hp : s.pending = none := by
      cases hp : s.pending with
      | none => rfl
      | some v => rw [hp] at h1; simp at h1
    have hc : s.qClosed = false := by
      cases hc : s.qClosed with
      | false => rfl
      | true => rw [hc] at h2; simp at h2
    refine ⟨?_, ?_, ?_, ?_⟩ <;> simp only
    · exact h.deq
    · intro hcc; rw [hc] at hcc; cases hcc
    · intro _
      have := h.liveLog hc
      rw [hp] at this
      simp only [Option.toList_none, List.append_nil] at this
      simp [this]
    · intro hcc; rw [hc] at hcc; cases hcc

theorem subInv_workerStep {Msg : Type} {s : Subscription Msg} (h : SubInv s) :
    SubInv (workerStep s).2 := by
  unfold workerStep
  by_cases h1 : s.workerDone = true
  · simp only [if_pos h1]
    exact h
  · simp only [if_neg h1]
    cases hq : s.queue with
    | nil =>
      simp only
      by_cases h2 : s.qClosed = true
      · simp only [if_pos h2]
        exact ⟨by simpa [hq] using h.deq, h.closedPending, h.liveLog, h.deadLog⟩
      · simp only [if_neg h2]
        exact h
    | cons m rest =>
      simp only
      refine ⟨?_, h.closedPending, h.liveLog, h.deadLog⟩
      simp only
      rw [List.append_assoc]
      simpa [hq] using h.deq

theorem subInv_resolvePending {Msg : Type} {s : Subscription Msg} (h : SubInv s) :
    SubInv (resolvePending s) := by
  unfold resolvePending
  cases hp : s.pending with
  | none => exact h
  | some m =>
    split_ifs with h1 h2
    · refine ⟨h.deq, fun _ => rfl, ?_, h.deadLog⟩
      intro hc; rw [hc] at h1; cases h1
    · have hc : s.qClosed = false := by
        cases hc : s.qClosed with
        | false => rfl
        | true => exact absurd hc h1
      refine ⟨?_, ?_, ?_, ?_⟩ <;> simp only
      · rw [← List.append_assoc, h.deq]
      · intro hcc; rw [hc] at hcc; cases hcc
      · intro _
        have := h.liveLog hc
        rw [hp] at this
        simp only [Option.toList_some] at this
        simpa using this
      · intro hcc; rw [hc] at hcc; cases hcc
    · exact h

theorem subInv_closeQueue {Msg : Type} {s : Subscription Msg} (h : SubInv s) :
    SubInv (closeQueue s) := by
  refine ⟨h.deq, fun _ => rfl, ?_, ?_⟩
  · intro hc; simp [closeQueue] at hc
  · intro _
    simpa [closeQueue] using subInv_entered_le_pubLog h

/-! ### Field tracking across enqueue chains (Publish fan-out) -/

/-- What one `enqueue` call can do to a subscription, seen from the
outside: the identity fields, the close/unsubscribe state, the worker
state and the delivery history are untouched; the invariant is preserved;
and a subscription whose channel is closed is left entirely unchanged. -/
structure Track {Msg : Type} (s s' : Subscription Msg) : Prop where
  subject : s'.subject = s.subject
  hid : s'.hid = s.hid
  qClosed : s'.qClosed = s.qClosed
  unsubbed : s'.unsubbed = s.unsubbed
  workerDone : s'.workerDone = s.workerDone
  delivered : s'.delivered = s.delivered
  queueFrozen : s.queue = [] → s.qClosed = true → s'.queue = []
  inv : SubInv s → SubInv s'
  frozen : s.qClosed = true → s' = s

theorem track_refl {Msg : Type} (s : Subscription Msg) : Track s s :=
  ⟨rfl, rfl, rfl, rfl, rfl, rfl, fun h _ => h, id, fun _ => rfl⟩

theorem track_trans {Msg : Type} {s₁ s₂ s₃ : Subscription Msg}
    (h₁ : Track s₁ s₂) (h₂ : Track s₂ s₃) : Track s₁ s₃ := by
  refine ⟨h₂.subject.trans h₁.subject, h₂.hid.trans h₁.hid, h₂.qClosed.trans h₁.qClosed,
    h₂.unsubbed.trans h₁.unsubbed, h₂.workerDone.trans h₁.workerDone,
    h₂.delivered.trans h₁.delivered, ?_, fun h => h₂.inv (h₁.inv h), ?_⟩
  · intro hq hc
    exact h₂.queueFrozen (h₁.queueFrozen hq hc) (h₁.qClosed.trans hc)
  · intro hc
    have h12 : s₂ = s₁ := h₁.frozen hc
    rw [h12] at h₂
    exact h₂.frozen hc

theorem track_enqueue {Msg : Type} (s : Subscription Msg) (m : Msg) :
    Track s (enqueue s m).2 := by
  unfold enqueue
  split_ifs with h1 h2 h3
  · exact track_refl s
  · exact track_refl s
  · refine ⟨rfl, rfl, rfl, rfl, rfl, rfl, ?_, fun h => by simpa [enqueue, h1, h2, h3] using subInv_enqueue h m, ?_⟩
    · intro _ hc; exact absurd hc h2
    · intro hc; exact absurd hc h2
  · refine ⟨rfl, rfl, rfl, rfl, rfl, rfl, ?_, fun h => by simpa [enqueue, h1, h2, h3] using subInv_enqueue h m, ?_⟩
    · intro _ hc; exact absurd hc h2
    · intro hc; exact absurd hc h2

/-- Fan-out tracking: every subscription in the store evolves along
`Track` during a `Publish` fan-out, and the store keeps its length. -/
theorem fanout_track {Msg : Type} (m : Msg) (ids : List Nat) :
    ∀ (store : List (Subscription Msg)) (r : PubRes) (store' : List (Subscription Msg)),
      fanout m store ids = (r, store') →
      store'.length = store.length ∧
      ∀ id : Nat, (store[id]? = none ∧ store'[id]? = none) ∨
            ∃ s s', store[id]? = some s ∧ store'[id]? = some s' ∧ Track s s' := by
  induction ids with
  | nil =>
    intro store r store' h
    simp only [fanout] at h
    injection h with h1 h2
    subst h2
    refine ⟨rfl, fun id => ?_⟩
    cases hs : store[id]? with
    | none => exact Or.inl ⟨rfl, rfl⟩
    | some s => exact Or.inr ⟨s, s, rfl, rfl, track_refl s⟩
  | cons id₀ rest ih =>
    intro store r store' h
    simp only [fanout] at h
    split at h
    · exact ih store r store' h
    · rename_i s hs
      have hlt : id₀ < store.length := by
        rcases List.getElem?_eq_some.mp hs with ⟨hl, -⟩
        exact hl
      have htrack₀ := track_enqueue s m
      have hstep : ∀ (s' : Subscription Msg), Track s s' →
          ∀ (r₁ : PubRes) (store₁ : List (Subscription Msg)),
          fanout m (store.set id₀ s') rest = (r₁, store₁) →
          store₁.length = store.length ∧
          ∀ id : Nat, (store[id]? = none ∧ store₁[id]? = none) ∨
            ∃ t t', store[id]? = some t ∧ store₁[id]? = some t' ∧ Track t t' := by
        intro s' hts r₁ store₁ h₁
        obtain ⟨hlen, htr⟩ := ih (store.set id₀ s') r₁ store₁ h₁
        refine ⟨hlen.trans (List.length_set ..), fun id => ?_⟩
        by_cases hi : id = id₀
        · subst hi
          rcases htr id with ⟨hn, -⟩ | ⟨t, t', ht, ht', htt⟩
          · rw [List.getElem?_set_self hlt] at hn; cases hn
          · rw [List.getElem?_set_self hlt] at ht
            injection ht with ht
            subst ht
            exact Or.inr ⟨s, t', hs, ht', track_trans hts htt⟩
        · rcases htr id with ⟨hn, hn'⟩ | ⟨t, t', ht, ht', htt⟩
          · rw [List.getElem?_set_ne (fun hh => hi hh.symm)] at hn
            exact Or.inl ⟨hn, hn'⟩
          · rw [List.getElem?_set_ne (fun hh => hi hh.symm)] at ht
            exact Or.inr ⟨t, t', ht, ht', htt⟩
      split at h
      · rename_i s' he
        rw [he] at htrack₀
        exact hstep s' htrack₀ r store' h
      · rename_i s' he
        rw [he] at htrack₀
        exact hstep s' htrack₀ r store' h
      · rename_i s' he
        rw [he] at htrack₀
        injection h with h1 h2
        subst h2
        refine ⟨List.length_set .., fun id => ?_⟩
        by_cases hi : id = id₀
        · subst hi
          refine Or.inr ⟨s, s', hs, ?_, htrack₀⟩
          rw [List.getElem?_set_self hlt]
        · cases hss : store[id]? with
          | none =>
            refine Or.inl ⟨rfl, ?_⟩
            rw [List.getElem?_set_ne (fun hh => hi hh.symm)]
            exact hss
          | some t =>
            refine Or.inr ⟨t, t, rfl, ?_, track_refl t⟩
            rw [List.getElem?_set_ne (fun hh => hi hh.symm)]
            exact hss
      · rename_i s' he
        injection h with h1 h2
        subst h2
        refine ⟨rfl, fun id => ?_⟩
        cases hss : store[id]? with
        | none => exact Or.inl ⟨rfl, rfl⟩
        | some t => exact Or.inr ⟨t, t, rfl, rfl, track_refl t⟩

/-- A fan-out leaves subscriptions outside the snapshot untouched. -/
theorem fanout_not_mem {Msg : Type} (m : Msg) (ids : List Nat) :
    ∀ (store : List (Subscription Msg)) {id}, id ∉ ids →
      (fanout m store ids).2[id]? = store[id]? := by
  induction ids with
  | nil => intro store id _; simp [fanout]
  | cons id₀ rest ih =>
    intro store id hid
    simp only [List.mem_cons, not_or] at hid
    simp only [fanout]
    split
    · exact ih store hid.2
    · rename_i s hs
      have hset : ∀ s' : Subscription Msg, (store.set id₀ s')[id]? = store[id]? :=
        fun s' => List.getElem?_set_ne (fun hh => hid.1 hh.symm)
      split
      · rename_i s' he
        exact (ih (store.set id₀ s') hid.2).trans (hset s')
      · rename_i s' he
        exact (ih (store.set id₀ s') hid.2).trans (hset s')
      · rename_i s' he
        exact hset s'
      · rfl

/-! ### Field lemmas for the single-subscription operations -/

theorem workerStep_of_done {Msg : Type} {s : Subscription Msg} (h : s.workerDone = true) :
    (workerStep s).2 = s := by
  simp [workerStep, h]

theorem workerStep_fields {Msg : Type} (s : Subscription Msg) :
    (workerStep s).2.subject = s.subject ∧ (workerStep s).2.hid = s.hid ∧
    (workerStep s).2.qClosed = s.qClosed ∧ (workerStep s).2.unsubbed = s.unsubbed ∧
    (workerStep s).2.pending = s.pending ∧ (workerStep s).2.entered = s.entered ∧
    (workerStep s).2.pubLog = s.pubLog := by
  unfold workerStep
  by_cases h1 : s.workerDone = true
  · simp [h1]
  · simp only [if_neg h1]
    cases hq : s.queue with
    | nil =>
      simp only
      by_cases h2 : s.qClosed = true <;> simp [h2]
    | cons m rest => simp

theorem workerStep_done_mono {Msg : Type} {s : Subscription Msg} (h : s.workerDone = true) :
    (workerStep s).2.workerDone = true := by
  rw [workerStep_of_done h]
  exact h

theorem workerStep_doneClosed {Msg : Type} {s : Subscription Msg}
    (hold : s.workerDone = true → s.qClosed = true ∧ s.queue = []) :
    (workerStep s).2.workerDone = true → (workerStep s).2.qClosed = true ∧ (workerStep s).2.queue = [] := by
  unfold workerStep
  by_cases h1 : s.workerDone = true
  · simpa [h1] using hold
  · simp only [if_neg h1]
    cases hq : s.queue with
    | nil =>
      simp only
      by_cases h2 : s.qClosed = true <;> simp [h2, h1]
    | cons m rest => simp [h1]

theorem resolvePending_fields {Msg : Type} (s : Subscription Msg) :
    (resolvePending s).subject = s.subject ∧ (resolvePending s).hid = s.hid ∧
    (resolvePending s).qClosed = s.qClosed ∧ (resolvePending s).unsubbed = s.unsubbed ∧
    (resolvePending s).workerDone = s.workerDone ∧ (resolvePending s).delivered = s.delivered ∧
    (resolvePending s).pubLog = s.pubLog := by
  unfold resolvePending
  cases hp : s.pending with
  | none => simp
  | some m => split_ifs <;> simp

theorem resolvePending_queue_of_qClosed {Msg : Type} {s : Subscription Msg}
    (h : s.qClosed = true) : (resolvePending s).queue = s.queue := by
  unfold resolvePending
  cases hp : s.pending with
  | none => rfl
  | some m => simp [h]

/-! ### The reachable-state invariant of the bus -/

/-- Invariant of every reachable bus state.  Beyond the per-subscription
`SubInv`, it records: an exited worker means a closed, drained queue; the
`sync.Once` guard has fired exactly when the channel is closed; `Close`
can only have returned nil on a closed bus with all workers finished; a
closed bus has an empty map and only unsubscribed subscriptions; the map
has no duplicate keys, entries without duplicates, only valid ids, ids
filed under their own subject, no unsubscribed ids; and every live
subscription is filed in the map under its subject. -/
structure Inv {Msg : Type} (b : SubPub Msg) : Prop where
  subInv : ∀ (id : Nat) s, b.store[id]? = some s → SubInv s
  doneClosed : ∀ (id : Nat) s, b.store[id]? = some s → s.workerDone = true →
    s.qClosed = true ∧ s.queue = []
  unsubEq : ∀ (id : Nat) s, b.store[id]? = some s → s.unsubbed = s.qClosed
  okClosed : b.closedOk = true → b.closed = true
  okDone : b.closedOk = true → ∀ (id : Nat) s, b.store[id]? = some s → s.workerDone = true
  closedMap : b.closed = true → b.subs = []
  closedUnsub : b.closed = true → ∀ (id : Nat) s, b.store[id]? = some s → s.unsubbed = true
  keysNodup : (b.subs.map Prod.fst).Nodup
  entryNodup : ∀ k l, mapLookup b.subs k = some l → l.Nodup
  idsLt : ∀ k l, mapLookup b.subs k = some l → ∀ id ∈ l, id < b.store.length
  subjOk : ∀ k l, mapLookup b.subs k = some l → ∀ id ∈ l, ∀ s, b.store[id]? = some s →
    s.subject = k
  unsubOut : ∀ (id : Nat) s, b.store[id]? = some s → s.unsubbed = true →
    ∀ k l, mapLookup b.subs k = some l → id ∉ l
  liveIn : ∀ (id : Nat) s, b.store[id]? = some s → s.unsubbed = false →
    ∃ l, mapLookup b.subs s.subject = some l ∧ id ∈ l

theorem inv_init {Msg : Type} : Inv (initBus : SubPub Msg) := by
  constructor <;> intros <;> simp_all [initBus, mapLookup]

/-- Preservation helper for the actions that replace one subscription in
the store with a successor (worker step, overflow resolution) while the
map, `closed` and `closedOk` stay put. -/
theorem inv_set_pointwise {Msg : Type} {b : SubPub Msg} (hInv : Inv b) {id₀ : Nat}
    {s₀ : Subscription Msg} (hs₀ : b.store[id₀]? = some s₀) (s₁ : Subscription Msg)
    (hsubject : s₁.subject = s₀.subject) (hunsub : s₁.unsubbed = s₀.unsubbed)
    (hq : s₁.qClosed = s₀.qClosed)
    (hinv : SubInv s₁)
    (hdc : s₁.workerDone = true → s₁.qClosed = true ∧ s₁.queue = [])
    (hwd : s₀.workerDone = true → s₁.workerDone = true) :
    Inv { b with store := b.store.set id₀ s₁ } := by
  have hlt : id₀ < b.store.length := by
    rcases List.getElem?_eq_some.mp hs₀ with ⟨hl, -⟩
    exact hl
  have hget : ∀ (id : Nat) s, (b.store.set id₀ s₁)[id]? = some s →
      (id = id₀ ∧ s = s₁) ∨ (id ≠ id₀ ∧ b.store[id]? = some s) := by
    intro id s hs
    by_cases hi : id = id₀
    · subst hi
      rw [List.getElem?_set_self hlt] at hs
      injection hs with hs
      exact Or.inl ⟨rfl, hs.symm⟩
    · rw [List.getElem?_set_ne (fun hh => hi hh.symm)] at hs
      exact Or.inr ⟨hi, hs⟩
  have hget' : ∀ (id : Nat), id ∈ (List.range b.store.length) → True := fun _ _ => trivial
  constructor
  · intro id s hs
    rcases hget id s hs with ⟨-, rfl⟩ | ⟨-, hs'⟩
    · exact hinv
    · exact hInv.subInv id s hs'
  · intro id s hs
    rcases hget id s hs with ⟨-, rfl⟩ | ⟨-, hs'⟩
    · exact hdc
    · exact hInv.doneClosed id s hs'
  · intro id s hs
    rcases hget id s hs with ⟨-, rfl⟩ | ⟨-, hs'⟩
    · exact hunsub.trans ((hInv.unsubEq id₀ s₀ hs₀).trans hq.symm)
    · exact hInv.unsubEq id s hs'
  · exact hInv.okClosed
  · intro hok id s hs
    rcases hget id s hs with ⟨-, rfl⟩ | ⟨-, hs'⟩
    · exact hwd (hInv.okDone hok id₀ s₀ hs₀)
    · exact hInv.okDone hok id s hs'
  · exact hInv.closedMap
  · intro hc id s hs
    rcases hget id s hs with ⟨-, rfl⟩ | ⟨-, hs'⟩
    · exact hunsub.trans (hInv.closedUnsub hc id₀ s₀ hs₀)
    · exact hInv.closedUnsub hc id s hs'
  · exact hInv.keysNodup
  · exact hInv.entryNodup
  · intro k l hl id hid
    have := hInv.idsLt k l hl id hid
    simpa [List.length_set] using this
  · intro k l hl id hid s hs
    rcases hget id s hs with ⟨hi, rfl⟩ | ⟨-, hs'⟩
    · exact hsubject.trans (hInv.subjOk k l hl id₀ (hi ▸ hid) s₀ hs₀)
    · exact hInv.subjOk k l hl id hid s hs'
  · intro id s hs hu k l hl
    rcases hget id s hs with ⟨hi, rfl⟩ | ⟨-, hs'⟩
    · rw [hi]
      exact hInv.unsubOut id₀ s₀ hs₀ (hunsub ▸ hu) k l hl
    · exact hInv.unsubOut id s hs' hu k l hl
  · intro id s hs hu
    rcases hget id s hs with ⟨hi, rfl⟩ | ⟨-, hs'⟩
    · rw [hi, hsubject]
      exact hInv.liveIn id₀ s₀ hs₀ (hunsub ▸ hu)
    · exact hInv.liveIn id s hs' hu

theorem inv_work {Msg : Type} {b : SubPub Msg} (hInv : Inv b) (id : Nat) :
    Inv (applyAction b (.work id)) := by
  simp only [applyAction]
  cases hs : b.store[id]? with
  | none => exact hInv
  | some s =>
    obtain ⟨f1, f2, f3, f4, f5, f6, f7⟩ := workerStep_fields s
    exact inv_set_pointwise hInv hs _ f1 f4 f3 (subInv_workerStep (hInv.subInv id s hs))
      (workerStep_doneClosed (hInv.doneClosed id s hs)) (fun h => workerStep_done_mono h)

theorem inv_resolve {Msg : Type} {b : SubPub Msg} (hInv : Inv b) (id : Nat) :
    Inv (applyAction b (.resolve id)) := by
  simp only [applyAction]
  cases hs : b.store[id]? with
  | none => exact hInv
  | some s =>
    obtain ⟨f1, f2, f3, f4, f5, f6, f7⟩ := resolvePending_fields s
    refine inv_set_pointwise hInv hs _ f1 f4 f3 (subInv_resolvePending (hInv.subInv id s hs))
      ?_ (fun h => f5.trans h)
    intro hw
    rw [f5] at hw
    obtain ⟨hc, hq⟩ := hInv.doneClosed id s hs hw
    exact ⟨f3.trans hc, (resolvePending_queue_of_qClosed hc).trans hq⟩

/-- Preservation helper for `Publish`: the store evolves along `Track`,
everything else except the panic flag and the result history stays. -/
theorem inv_store_track {Msg : Type} {b : SubPub Msg} (hInv : Inv b)
    (store' : List (Subscription Msg)) (hlen : store'.length = b.store.length)
    (htr : ∀ id : Nat, (b.store[id]? = none ∧ store'[id]? = none) ∨
      ∃ s s', b.store[id]? = some s ∧ store'[id]? = some s' ∧ Track s s')
    (crashed' : Bool) (pubRet : List Bool) :
    Inv { b with store := store', crashed := crashed', pubReturns := pubRet } := by
  have hget : ∀ (id : Nat) s', store'[id]? = some s' →
      ∃ s, b.store[id]? = some s ∧ Track s s' := by
    intro id s' hs'
    rcases htr id with ⟨-, hn⟩ | ⟨s, s'', hs, hs'', ht⟩
    · rw [hn] at hs'; cases hs'
    · rw [hs''] at hs'
      injection hs' with hs'
      subst hs'
      exact ⟨s, hs, ht⟩
  constructor
  · intro id s' hs'
    obtain ⟨s, hs, ht⟩ := hget id s' hs'
    exact ht.inv (hInv.subInv id s hs)
  · intro id s' hs' hw
    obtain ⟨s, hs, ht⟩ := hget id s' hs'
    rw [ht.workerDone] at hw
    obtain ⟨hc, hq⟩ := hInv.doneClosed id s hs hw
    exact ⟨ht.qClosed.trans hc, ht.queueFrozen hq hc⟩
  · intro id s' hs'
    obtain ⟨s, hs, ht⟩ := hget id s' hs'
    rw [ht.unsubbed, ht.qClosed]
    exact hInv.unsubEq id s hs
  · exact hInv.okClosed
  · intro hok id s' hs'
    obtain ⟨s, hs, ht⟩ := hget id s' hs'
    rw [ht.workerDone]
    exact hInv.okDone hok id s hs
  · exact hInv.closedMap
  · intro hc id s' hs'
    obtain ⟨s, hs, ht⟩ := hget id s' hs'
    rw [ht.unsubbed]
    exact hInv.closedUnsub hc id s hs
  · exact hInv.keysNodup
  · exact hInv.entryNodup
  · intro k l hl id hidl
    have := hInv.idsLt k l hl id hidl
    simpa [hlen] using this
  · intro k l hl id hidl s' hs'
    obtain ⟨s, hs, ht⟩ := hget id s' hs'
    rw [ht.subject]
    exact hInv.subjOk k l hl id hidl s hs
  · intro id s' hs' hu k l hl
    obtain ⟨s, hs, ht⟩ := hget id s' hs'
    rw [ht.unsubbed] at hu
    exact hInv.unsubOut id s hs hu k l hl
  · intro id s' hs' hu
    obtain ⟨s, hs, ht⟩ := hget id s' hs'
    rw [ht.unsubbed] at hu
    rw [ht.subject]
    exact hInv.liveIn id s hs hu

theorem inv_publish {Msg : Type} {b : SubPub Msg} (hInv : Inv b) (subject : String) (m : Msg) :
    Inv (applyAction b (.pub subject m)) := by
  simp only [applyAction, publish]
  by_cases hc : b.closed = true
  · simp only [if_pos hc]
    exact ⟨hInv.subInv, hInv.doneClosed, hInv.unsubEq, hInv.okClosed, hInv.okDone,
      hInv.closedMap, hInv.closedUnsub, hInv.keysNodup, hInv.entryNodup, hInv.idsLt,
      hInv.subjOk, hInv.unsubOut, hInv.liveIn⟩
  · simp only [if_neg hc]
    cases hP : fanout m b.store ((mapLookup b.subs subject).getD []) with
    | mk r store' =>
      obtain ⟨hlen, htr⟩ := fanout_track m _ b.store r store' hP
      cases r
      · exact inv_store_track hInv store' hlen htr b.crashed _
      · exact inv_store_track hInv store' hlen htr b.crashed _
      · exact inv_store_track hInv store' hlen htr true _
      · exact inv_store_track hInv store' hlen htr b.crashed _

theorem inv_subscribe {Msg : Type} {b : SubPub Msg} (hInv : Inv b) (subj : String) (hid : Nat) :
    Inv (applyAction b (.sub subj hid)) := by
  simp only [applyAction, subscribe]
  by_cases hc : b.closed = true
  · simp only [if_pos hc]
    exact hInv
  · simp only [if_neg hc]
    have happly : ∀ (id : Nat) (s : Subscription Msg),
        (b.store ++ [initSub subj hid])[id]? = some s →
        (id < b.store.length ∧ b.store[id]? = some s) ∨
        (id = b.store.length ∧ s = initSub subj hid) := by
      intro id s hs
      by_cases hlt : id < b.store.length
      · rw [List.getElem?_append, if_pos hlt] at hs
        exact Or.inl ⟨hlt, hs⟩
      · rw [List.getElem?_append, if_neg hlt] at hs
        cases hd : id - b.store.length with
        | zero =>
          rw [hd] at hs
          simp only [List.getElem?_cons_zero] at hs
          injection hs with hs
          exact Or.inr ⟨by omega, hs.symm⟩
        | succ n =>
          rw [hd] at hs
          simp at hs
    have hold : ∀ id ∈ (mapLookup b.subs subj).getD [], id < b.store.length := by
      intro id hidm
      cases hl : mapLookup b.subs subj with
      | none => rw [hl] at hidm; simp at hidm
      | some v =>
        rw [hl] at hidm
        exact hInv.idsLt subj v hl id hidm
    have holdnd : ((mapLookup b.subs subj).getD []).Nodup := by
      cases hl : mapLookup b.subs subj with
      | none => simp
      | some v => simpa using hInv.entryNodup subj v hl
    have hlookup_subj : mapLookup
        (mapSet b.subs subj ((mapLookup b.subs subj).getD [] ++ [b.store.length])) subj
        = some ((mapLookup b.subs subj).getD [] ++ [b.store.length]) :=
      mapLookup_mapSet_self ..
    have hlookup_ne : ∀ k, k ≠ subj → mapLookup
        (mapSet b.subs subj ((mapLookup b.subs subj).getD [] ++ [b.store.length])) k
        = mapLookup b.subs k :=
      fun k hk => mapLookup_mapSet_ne _ _ hk
    have hsplitg : ∀ id : Nat, id < b.store.length →
        (b.store ++ [initSub subj hid])[id]? = b.store[id]? := by
      intro id hlt
      rw [List.getElem?_append, if_pos hlt]
    have hnewg : (b.store ++ [initSub subj hid])[b.store.length]?
        = some (initSub subj hid) := List.getElem?_concat_length ..
    have hmem_entry : ∀ k l, mapLookup
        (mapSet b.subs subj ((mapLookup b.subs subj).getD [] ++ [b.store.length])) k
        = some l → ∀ id ∈ l,
        (∃ l₀, mapLookup b.subs k = some l₀ ∧ id ∈ l₀) ∨ (k = subj ∧ id = b.store.length) := by
      intro k l hl id hidm
      by_cases hk : k = subj
      · subst hk
        rw [hlookup_subj] at hl
        injection hl with hl
        subst hl
        rcases List.mem_append.mp hidm with h | h
        · cases hl0 : mapLookup b.subs k with
          | none => rw [hl0] at h; simp at h
          | some v =>
            rw [hl0] at h
            exact Or.inl ⟨v, rfl, h⟩
        · simp only [List.mem_singleton] at h
          exact Or.inr ⟨rfl, h⟩
      · rw [hlookup_ne k hk] at hl
        exact Or.inl ⟨l, hl, hidm⟩
    constructor
    · intro id s hs
      rcases happly id s hs with ⟨-, hs'⟩ | ⟨-, rfl⟩
      · exact hInv.subInv id s hs'
      · exact subInv_initSub subj hid
    · intro id s hs hw
      rcases happly id s hs with ⟨-, hs'⟩ | ⟨-, rfl⟩
      · exact hInv.doneClosed id s hs' hw
      · simp [initSub] at hw
    · intro id s hs
      rcases happly id s hs with ⟨-, hs'⟩ | ⟨-, rfl⟩
      · exact hInv.unsubEq id s hs'
      · simp [initSub]
    · intro hok
      exact absurd (hInv.okClosed hok) hc
    · intro hok
      exact absurd (hInv.okClosed hok) hc
    · intro hcc
      exact absurd hcc hc
    · intro hcc
      exact absurd hcc hc
    · simp only
      cases hl : mapLookup b.subs subj with
      | some v =>
        rw [keys_mapSet_some _ _ v hl]
        exact hInv.keysNodup
      | none =>
        rw [keys_mapSet_none _ _ hl]
        rw [List.nodup_append]
        refine ⟨hInv.keysNodup, List.nodup_singleton subj, ?_⟩
        intro a ha hb
        simp only [List.mem_singleton] at hb
        subst hb
        exact (mapLookup_eq_none_iff b.subs a).mp hl ha
    · intro k l hl
      by_cases hk : k = subj
      · subst hk
        rw [hlookup_subj] at hl
        injection hl with hl
        subst hl
        rw [List.nodup_append]
        refine ⟨holdnd, List.nodup_singleton _, ?_⟩
        intro a ha hb
        simp only [List.mem_singleton] at hb
        subst hb
        exact absurd (hold _ ha) (lt_irrefl _)
      · rw [hlookup_ne k hk] at hl
        exact hInv.entryNodup k l hl
    · intro k l hl id hidm
      simp only [List.length_append, List.length_cons, List.length_nil]
      rcases hmem_entry k l hl id hidm with ⟨l₀, hl₀, hm⟩ | ⟨-, rfl⟩
      · have := hInv.idsLt k l₀ hl₀ id hm
        omega
      · omega
    · intro k l hl id hidm s hs
      rcases hmem_entry k l hl id hidm with ⟨l₀, hl₀, hm⟩ | ⟨hk, hi⟩
      · have hlt := hInv.idsLt k l₀ hl₀ id hm
        rw [hsplitg id hlt] at hs
        exact hInv.subjOk k l₀ hl₀ id hm s hs
      · subst hk
        subst hi
        rw [hnewg] at hs
        injection hs with hs
        subst hs
        rfl
    · intro id s hs hu k l hl
      rcases happly id s hs with ⟨hlt, hs'⟩ | ⟨-, rfl⟩
      · intro hidm
        rcases hmem_entry k l hl id hidm with ⟨l₀, hl₀, hm⟩ | ⟨-, hi⟩
        · exact hInv.unsubOut id s hs' hu k l₀ hl₀ hm
        · omega
      · simp [initSub] at hu
    · intro id s hs hu
      rcases happly id s hs with ⟨hlt, hs'⟩ | ⟨hi, rfl⟩
      · obtain ⟨l₀, hl₀, hm⟩ := hInv.liveIn id s hs' hu
        by_cases hk : s.subject = subj
        · rw [hk]
          refine ⟨(mapLookup b.subs subj).getD [] ++ [b.store.length], hlookup_subj, ?_⟩
          rw [hk] at hl₀
          rw [hl₀]
          simp only [Option.getD_some, List.mem_append]
          exact Or.inl hm
        · exact ⟨l₀, by rw [hlookup_ne _ hk]; exact hl₀, hm⟩
      · subst hi
        refine ⟨(mapLookup b.subs subj).getD [] ++ [b.store.length], ?_, ?_⟩
        · simpa [initSub] using hlookup_subj
        · simp

/-- Characterization of a first (effective) `unsubscribe` call. -/
theorem unsubscribe_eq {Msg : Type} {b : SubPub Msg} {id₀ : Nat} {s₀ : Subscription Msg}
    (hs₀ : b.store[id₀]? = some s₀) (hu : s₀.unsubbed = false)
    {l : List Nat} (hl : mapLookup b.subs s₀.subject = some l) :
    unsubscribe b id₀ = { b with
      subs := if swapRemove l id₀ = [] then mapErase b.subs s₀.subject
              else mapSet b.subs s₀.subject (swapRemove l id₀),
      store := b.store.set id₀ (closeQueue { s₀ with unsubbed := true }) } := by
  unfold unsubscribe
  split
  · rename_i heq
    rw [heq] at hs₀
    cases hs₀
  · rename_i s heq
    rw [heq] at hs₀
    injection hs₀ with hs₀
    subst hs₀
    rw [if_neg (by rw [hu]; exact Bool.false_ne_true)]
    split
    · rename_i heq2
      rw [heq2] at hl
      cases hl
    · rename_i list heq2
      rw [heq2] at hl
      injection hl with hl
      subst hl
      rfl

/-- A no-op repeat `unsubscribe` call. -/
theorem unsubscribe_noop {Msg : Type} {b : SubPub Msg} {id₀ : Nat} {s₀ : Subscription Msg}
    (hs₀ : b.store[id₀]? = some s₀) (hu : s₀.unsubbed = true) :
    unsubscribe b id₀ = b := by
  unfold unsubscribe
  split
  · rfl
  · rename_i s heq
    rw [heq] at hs₀
    injection hs₀ with hs₀
    subst hs₀
    rw [if_pos hu]

/-- `unsubscribe` on an unknown id is a no-op. -/
theorem unsubscribe_none {Msg : Type} {b : SubPub Msg} {id₀ : Nat}
    (hs₀ : b.store[id₀]? = none) : unsubscribe b id₀ = b := by
  unfold unsubscribe
  split
  · rfl
  · rename_i s heq
    rw [heq] at hs₀
    cases hs₀

theorem inv_unsubscribe {Msg : Type} {b : SubPub Msg} (hInv : Inv b) (id₀ : Nat) :
    Inv (unsubscribe b id₀) := by
  cases hs₀ : b.store[id₀]? with
  | none => rw [unsubscribe_none hs₀]; exact hInv
  | some s₀ =>
    by_cases hu : s₀.unsubbed = true
    · rw [unsubscribe_noop hs₀ hu]; exact hInv
    · have hu' : s₀.unsubbed = false := by revert hu; cases s₀.unsubbed <;> simp
      have hqc : s₀.qClosed = false := (hInv.unsubEq id₀ s₀ hs₀).symm.trans hu'
      have hbc : b.closed ≠ true := fun hcc =>
        hu (hInv.closedUnsub hcc id₀ s₀ hs₀)
      have hok : b.closedOk ≠ true := fun hokk => hbc (hInv.okClosed hokk)
      obtain ⟨l, hl, hmem⟩ := hInv.liveIn id₀ s₀ hs₀ hu'
      have hnd : l.Nodup := hInv.entryNodup _ l hl
      have hlt₀ : id₀ < b.store.length := by
        rcases List.getElem?_eq_some.mp hs₀ with ⟨hlt, -⟩
        exact hlt
      rw [unsubscribe_eq hs₀ hu' hl]
      have hlkne : ∀ k, k ≠ s₀.subject →
          mapLookup (if swapRemove l id₀ = [] then mapErase b.subs s₀.subject
            else mapSet b.subs s₀.subject (swapRemove l id₀)) k = mapLookup b.subs k := by
        intro k hk
        by_cases hcase : swapRemove l id₀ = []
        · rw [if_pos hcase]
          exact mapLookup_mapErase_ne _ hk
        · rw [if_neg hcase]
          exact mapLookup_mapSet_ne _ _ hk
      have hlk : ∀ k l', mapLookup (if swapRemove l id₀ = [] then mapErase b.subs s₀.subject
            else mapSet b.subs s₀.subject (swapRemove l id₀)) k = some l' →
          (k ≠ s₀.subject ∧ mapLookup b.subs k = some l') ∨
          (k = s₀.subject ∧ l' = swapRemove l id₀) := by
        intro k l' hl'
        by_cases hk : k = s₀.subject
        · subst hk
          by_cases hcase : swapRemove l id₀ = []
          · rw [if_pos hcase, mapLookup_mapErase_self _ _ hInv.keysNodup] at hl'
            cases hl'
          · rw [if_neg hcase, mapLookup_mapSet_self] at hl'
            injection hl' with hl'
            exact Or.inr ⟨rfl, hl'.symm⟩
        · rw [hlkne k hk] at hl'
          exact Or.inl ⟨hk, hl'⟩
      have hget : ∀ (id : Nat) s,
          (b.store.set id₀ (closeQueue { s₀ with unsubbed := true }))[id]? = some s →
          (id = id₀ ∧ s = closeQueue { s₀ with unsubbed := true }) ∨
          (id ≠ id₀ ∧ b.store[id]? = some s) := by
        intro id s hs
        by_cases hi : id = id₀
        · subst hi
          rw [List.getElem?_set_self hlt₀] at hs
          injection hs with hs
          exact Or.inl ⟨rfl, hs.symm⟩
        · rw [List.getElem?_set_ne (fun hh => hi hh.symm)] at hs
          exact Or.inr ⟨hi, hs⟩
      have hsubinv₀ : SubInv s₀ := hInv.subInv id₀ s₀ hs₀
      have hsubinv₁ : SubInv (closeQueue { s₀ with unsubbed := true }) := by
        refine subInv_closeQueue ?_
        exact ⟨hsubinv₀.deq, hsubinv₀.closedPending, hsubinv₀.liveLog, hsubinv₀.deadLog⟩
      constructor
      · intro id s hs
        rcases hget id s hs with ⟨-, rfl⟩ | ⟨-, hs'⟩
        · exact hsubinv₁
        · exact hInv.subInv id s hs'
      · intro id s hs hw
        rcases hget id s hs with ⟨-, rfl⟩ | ⟨-, hs'⟩
        · simp only [closeQueue] at hw ⊢
          obtain ⟨hqq, hq2⟩ := hInv.doneClosed id₀ s₀ hs₀ hw
          rw [hqq] at hqc
          cases hqc
        · exact hInv.doneClosed id s hs' hw
      · intro id s hs
        rcases hget id s hs with ⟨-, rfl⟩ | ⟨-, hs'⟩
        · rfl
        · exact hInv.unsubEq id s hs'
      · intro hokk
        exact absurd hokk hok
      · intro hokk
        exact absurd hokk hok
      · intro hcc
        exact absurd hcc hbc
      · intro hcc
        exact absurd hcc hbc
      · simp only
        by_cases hcase : swapRemove l id₀ = []
        · rw [if_pos hcase]
          exact nodup_keys_mapErase _ _ hInv.keysNodup
        · rw [if_neg hcase]
          rw [keys_mapSet_some _ _ l hl]
          exact hInv.keysNodup
      · intro k l' hl'
        rcases hlk k l' hl' with ⟨-, hold⟩ | ⟨-, rfl⟩
        · exact hInv.entryNodup k l' hold
        · exact nodup_swapRemove hnd
      · intro k l' hl' id hidm
        simp only [List.length_set]
        rcases hlk k l' hl' with ⟨-, hold⟩ | ⟨-, rfl⟩
        · exact hInv.idsLt k l' hold id hidm
        · exact hInv.idsLt _ l hl id ((mem_swapRemove_iff hnd id).mp hidm).1
      · intro k l' hl' id hidm s hs
        rcases hget id s hs with ⟨hie, rfl⟩ | ⟨hine, hs'⟩
        · subst hie
          rcases hlk k l' hl' with ⟨hk, hold⟩ | ⟨hk, hleq⟩
          · have hsk : s₀.subject = k := hInv.subjOk k l' hold id hidm s₀ hs₀
            exact absurd hsk.symm hk
          · subst hleq
            exact absurd rfl ((mem_swapRemove_iff hnd id).mp hidm).2
        · rcases hlk k l' hl' with ⟨hk, hold⟩ | ⟨hk, hleq⟩
          · exact hInv.subjOk k l' hold id hidm s hs'
          · subst hleq
            have hidl : id ∈ l := ((mem_swapRemove_iff hnd id).mp hidm).1
            rw [hk]
            exact hInv.subjOk _ l hl id hidl s hs'
      · intro id s hs hus k l' hl' hidm
        rcases hget id s hs with ⟨hie, rfl⟩ | ⟨hine, hs'⟩
        · subst hie
          rcases hlk k l' hl' with ⟨hk, hold⟩ | ⟨hk, hleq⟩
          · have hsk : s₀.subject = k := hInv.subjOk k l' hold id hidm s₀ hs₀
            exact hk hsk.symm
          · subst hleq
            exact ((mem_swapRemove_iff hnd id).mp hidm).2 rfl
        · rcases hlk k l' hl' with ⟨hk, hold⟩ | ⟨hk, hleq⟩
          · exact hInv.unsubOut id s hs' hus k l' hold hidm
          · subst hleq
            have hidl : id ∈ l := ((mem_swapRemove_iff hnd id).mp hidm).1
            exact hInv.unsubOut id s hs' hus _ l hl hidl
      · intro id s hs hus
        rcases hget id s hs with ⟨hie, rfl⟩ | ⟨hine, hs'⟩
        · simp [closeQueue] at hus
        · obtain ⟨l₁, hl₁, hm₁⟩ := hInv.liveIn id s hs' hus
          by_cases hk : s.subject = s₀.subject
          · rw [hk] at hl₁
            rw [hl] at hl₁
            injection hl₁ with hl₁
            subst hl₁
            have hidm' : id ∈ swapRemove l id₀ :=
              (mem_swapRemove_iff hnd id).mpr ⟨hm₁, hine⟩
            have hcase : ¬ swapRemove l id₀ = [] := fun hh => by
              rw [hh] at hidm'
              simp at hidm'
            refine ⟨swapRemove l id₀, ?_, hidm'⟩
            rw [hk, if_neg hcase]
            exact mapLookup_mapSet_self ..
          · refine ⟨l₁, ?_, hm₁⟩
            rw [hlkne _ hk]
            exact hl₁

/-! ### Frame lemmas for unsubscribe, and the Close teardown fold -/

theorem unsubscribe_get_ne {Msg : Type} (b : SubPub Msg) (id₀ id : Nat) (hne : id ≠ id₀) :
    (unsubscribe b id₀).store[id]? = b.store[id]? := by
  unfold unsubscribe
  split
  · rfl
  · rename_i s heq
    split
    · rfl
    · simp only
      exact List.getElem?_set_ne (fun hh => hne hh.symm)

theorem unsubscribe_get_self {Msg : Type} {b : SubPub Msg} {id₀ : Nat} {s : Subscription Msg}
    (hs : b.store[id₀]? = some s) (hu : s.unsubbed = false) :
    (unsubscribe b id₀).store[id₀]? = some (closeQueue { s with unsubbed := true }) := by
  have hlt : id₀ < b.store.length := (List.getElem?_eq_some.mp hs).1
  unfold unsubscribe
  split
  · rename_i heq
    rw [heq] at hs
    cases hs
  · rename_i s₁ heq
    rw [heq] at hs
    injection hs with hs
    subst hs
    rw [if_neg (by rw [hu]; exact Bool.false_ne_true)]
    simp only
    exact List.getElem?_set_self hlt

theorem unsubscribe_store_get {Msg : Type} (b : SubPub Msg) (id₀ id : Nat) :
    (unsubscribe b id₀).store[id]? = b.store[id]? ∨
    ∃ s, id = id₀ ∧ b.store[id₀]? = some s ∧ s.unsubbed = false ∧
      (unsubscribe b id₀).store[id]? = some (closeQueue { s with unsubbed := true }) := by
  by_cases hi : id = id₀
  · subst hi
    cases hs : b.store[id]? with
    | none => exact Or.inl (by rw [unsubscribe_none hs]; exact hs)
    | some s =>
      by_cases hu : s.unsubbed = true
      · exact Or.inl (by rw [unsubscribe_noop hs hu]; exact hs)
      · have hu' : s.unsubbed = false := by revert hu; cases s.unsubbed <;> simp
        exact Or.inr ⟨s, rfl, rfl, hu', unsubscribe_get_self hs hu'⟩
  · exact Or.inl (unsubscribe_get_ne b id₀ id hi)

theorem unsubscribe_frame {Msg : Type} (b : SubPub Msg) (id₀ : Nat) :
    (unsubscribe b id₀).closed = b.closed ∧ (unsubscribe b id₀).closedOk = b.closedOk ∧
    (unsubscribe b id₀).store.length = b.store.length ∧
    (b.subs = [] → (unsubscribe b id₀).subs = []) := by
  unfold unsubscribe
  split
  · exact ⟨rfl, rfl, rfl, fun h => h⟩
  · rename_i s heq
    split
    · exact ⟨rfl, rfl, rfl, fun h => h⟩
    · refine ⟨rfl, rfl, List.length_set .., ?_⟩
      intro hnil
      simp only [hnil]
      rfl

theorem foldl_unsub_frame {Msg : Type} (ids : List Nat) :
    ∀ b : SubPub Msg,
      ((ids.foldl unsubscribe b).closed = b.closed) ∧
      ((ids.foldl unsubscribe b).closedOk = b.closedOk) ∧
      ((ids.foldl unsubscribe b).store.length = b.store.length) ∧
      (b.subs = [] → (ids.foldl unsubscribe b).subs = []) := by
  induction ids with
  | nil => intro b; exact ⟨rfl, rfl, rfl, fun h => h⟩
  | cons id₀ rest ih =>
    intro b
    obtain ⟨h1, h2, h3, h4⟩ := unsubscribe_frame b id₀
    obtain ⟨g1, g2, g3, g4⟩ := ih (unsubscribe b id₀)
    simp only [List.foldl_cons]
    exact ⟨g1.trans h1, g2.trans h2, g3.trans h3, fun h => g4 (h4 h)⟩

theorem foldl_unsub_store {Msg : Type} (ids : List Nat) :
    ∀ (b : SubPub Msg) (id : Nat),
      ((ids.foldl unsubscribe b).store[id]? = b.store[id]?) ∨
      ∃ s, b.store[id]? = some s ∧ s.unsubbed = false ∧
        (ids.foldl unsubscribe b).store[id]? = some (closeQueue { s with unsubbed := true }) := by
  induction ids with
  | nil => intro b id; exact Or.inl rfl
  | cons id₀ rest ih =>
    intro b id
    simp only [List.foldl_cons]
    rcases unsubscribe_store_get b id₀ id with hstep | ⟨s, hi, hs, hu, hstep⟩
    · rcases ih (unsubscribe b id₀) id with hf | ⟨s, hsb, hu, hf⟩
      · exact Or.inl (hf.trans hstep)
      · rw [hstep] at hsb
        exact Or.inr ⟨s, hsb, hu, hf⟩
    · subst hi
      rcases ih (unsubscribe b id) id with hf | ⟨s', hsb, hu', hf⟩
      · rw [hstep] at hf
        exact Or.inr ⟨s, hs, hu, hf⟩
      · rw [hstep] at hsb
        injection hsb with hsb
        rw [← hsb] at hu'
        simp [closeQueue] at hu'

theorem foldl_unsub_keeps {Msg : Type} (ids : List Nat) (b : SubPub Msg) (id : Nat)
    (s : Subscription Msg) (hs : b.store[id]? = some s) (hu : s.unsubbed = true) :
    (ids.foldl unsubscribe b).store[id]? = some s := by
  rcases foldl_unsub_store ids b id with hf | ⟨s', hs', hu', hf⟩
  · exact hf.trans hs
  · rw [hs] at hs'
    injection hs' with hs'
    rw [← hs'] at hu'
    rw [hu] at hu'
    cases hu'

theorem foldl_unsub_hits {Msg : Type} (ids : List Nat) :
    ∀ (b : SubPub Msg) (id : Nat), id ∈ ids → ∀ s, b.store[id]? = some s →
      ∃ s', (ids.foldl unsubscribe b).store[id]? = some s' ∧ s'.unsubbed = true := by
  induction ids with
  | nil => intro b id h; simp at h
  | cons id₀ rest ih =>
    intro b id hmem s hs
    simp only [List.foldl_cons]
    rcases List.mem_cons.mp hmem with hi | hi
    · subst hi
      by_cases hu : s.unsubbed = true
      · rw [unsubscribe_noop hs hu]
        exact ⟨s, foldl_unsub_keeps rest b id s hs hu, hu⟩
      · have hu' : s.unsubbed = false := by revert hu; cases s.unsubbed <;> simp
        have hself := unsubscribe_get_self hs hu'
        exact ⟨closeQueue { s with unsubbed := true },
          foldl_unsub_keeps rest (unsubscribe b id) id _ hself rfl, rfl⟩
    · rcases unsubscribe_store_get b id₀ id with hstep | ⟨s', -, -, -, hstep⟩
      · exact ih (unsubscribe b id₀) id hi s (hstep.trans hs)
      · exact ih (unsubscribe b id₀) id hi _ hstep

theorem inv_closeBegin {Msg : Type} {b : SubPub Msg} (hInv : Inv b) :
    Inv (applyAction b .closeBegin) := by
  simp only [applyAction, closeOp]
  by_cases hc : b.closed = true
  · simp only [if_pos hc]
    exact hInv
  · simp only [if_neg hc]
    obtain ⟨hFclosed, hFok, hFlen, hFsubs⟩ :=
      foldl_unsub_frame (allIds b.subs)
        { b with closed := true, subs := ([] : List (String × List Nat)) }
    have hFsubs' := hFsubs rfl
    have hall : ∀ (id : Nat) s', (List.foldl unsubscribe
        { b with closed := true, subs := ([] : List (String × List Nat)) }
        (allIds b.subs)).store[id]? = some s' → s'.unsubbed = true := by
      intro id s' hs'
      rcases foldl_unsub_store (allIds b.subs)
          { b with closed := true, subs := ([] : List (String × List Nat)) } id with
        hf | ⟨s, hs, hu, hf⟩
      · have hsb : b.store[id]? = some s' := hf.symm.trans hs'
        by_cases hu : s'.unsubbed = true
        · exact hu
        · have hu' : s'.unsubbed = false := by revert hu; cases s'.unsubbed <;> simp
          obtain ⟨l, hl, hm⟩ := hInv.liveIn id s' hsb hu'
          have hidall : id ∈ allIds b.subs := mem_allIds_of_lookup _ hl hm
          obtain ⟨s'', hf'', hu''⟩ := foldl_unsub_hits (allIds b.subs)
            { b with closed := true, subs := ([] : List (String × List Nat)) } id hidall s' hsb
          have heq := hf''.symm.trans hs'
          injection heq with heq
          rw [← heq]
          exact hu''
      · have heq := hf.symm.trans hs'
        injection heq with heq
        rw [← heq]
        rfl
    constructor
    · intro id s' hs'
      rcases foldl_unsub_store (allIds b.subs)
          { b with closed := true, subs := ([] : List (String × List Nat)) } id with
        hf | ⟨s, hs, hu, hf⟩
      · exact hInv.subInv id s' (hf.symm.trans hs')
      · have heq := hf.symm.trans hs'
        injection heq with heq
        have hsi := hInv.subInv id s hs
        rw [← heq]
        exact subInv_closeQueue ⟨hsi.deq, hsi.closedPending, hsi.liveLog, hsi.deadLog⟩
    · intro id s' hs' hw
      rcases foldl_unsub_store (allIds b.subs)
          { b with closed := true, subs := ([] : List (String × List Nat)) } id with
        hf | ⟨s, hs, hu, hf⟩
      · exact hInv.doneClosed id s' (hf.symm.trans hs') hw
      · have heq := hf.symm.trans hs'
        injection heq with heq
        rw [← heq] at hw ⊢
        simp only [closeQueue] at hw ⊢
        obtain ⟨-, hq⟩ := hInv.doneClosed id s hs hw
        exact ⟨trivial, hq⟩
    · intro id s' hs'
      rcases foldl_unsub_store (allIds b.subs)
          { b with closed := true, subs := ([] : List (String × List Nat)) } id with
        hf | ⟨s, hs, hu, hf⟩
      · exact hInv.unsubEq id s' (hf.symm.trans hs')
      · have heq := hf.symm.trans hs'
        injection heq with heq
        rw [← heq]
        rfl
    · intro _
      exact hFclosed
    · intro hok
      have : b.closedOk = true := hFok.symm.trans hok
      exact absurd (hInv.okClosed this) hc
    · intro _
      exact hFsubs'
    · intro _
      exact hall
    · rw [hFsubs']
      simp
    · intro k l hl
      rw [hFsubs'] at hl
      simp [mapLookup] at hl
    · intro k l hl
      rw [hFsubs'] at hl
      simp [mapLookup] at hl
    · intro k l hl
      rw [hFsubs'] at hl
      simp [mapLookup] at hl
    · intro id s' hs' hu k l hl
      rw [hFsubs'] at hl
      simp [mapLookup] at hl
    · intro id s' hs' hu
      have := hall id s' hs'
      rw [this] at hu
      cases hu

theorem inv_closeRetOk {Msg : Type} {b : SubPub Msg} (hInv : Inv b) :
    Inv (applyAction b .closeRetOk) := by
  simp only [applyAction]
  by_cases hg : (b.closed && allWorkersDone b) = true
  · rw [if_pos hg]
    rw [Bool.and_eq_true] at hg
    have hdone : ∀ (id : Nat) s, b.store[id]? = some s → s.workerDone = true := by
      intro id s hs
      have hmem : s ∈ b.store := by
        rcases List.getElem?_eq_some.mp hs with ⟨hlt, hget⟩
        rw [← hget]
        exact List.getElem_mem ..
      have hg2 := hg.2
      rw [allWorkersDone, List.all_eq_true] at hg2
      exact hg2 s hmem
    exact ⟨hInv.subInv, hInv.doneClosed, hInv.unsubEq, fun _ => hg.1, fun _ => hdone,
      hInv.closedMap, hInv.closedUnsub, hInv.keysNodup, hInv.entryNodup, hInv.idsLt,
      hInv.subjOk, hInv.unsubOut, hInv.liveIn⟩
  · rw [if_neg hg]
    exact hInv

theorem inv_apply {Msg : Type} {b : SubPub Msg} (hInv : Inv b) (a : Action Msg) :
    Inv (applyAction b a) := by
  cases a with
  | sub subject hid => exact inv_subscribe hInv subject hid
  | pub subject m => exact inv_publish hInv subject m
  | unsub id => exact inv_unsubscribe hInv id
  | work id => exact inv_work hInv id
  | resolve id => exact inv_resolve hInv id
  | closeBegin => exact inv_closeBegin hInv
  | closeRetOk => exact inv_closeRetOk hInv

theorem inv_run {Msg : Type} {b : SubPub Msg} (hInv : Inv b) (t : List (Action Msg)) :
    Inv (run b t) := by
  induction t generalizing b with
  | nil => exact hInv
  | cons a rest ih => exact ih (inv_apply hInv a)

theorem inv_run_init {Msg : Type} (t : List (Action Msg)) : Inv (run initBus t) :=
  inv_run inv_init t

/-! ### Draining a live subscription delivers its whole accepted log -/

theorem resolve_none {Msg : Type} {s : Subscription Msg} (hp : s.pending = none) :
    resolvePending s = s := by
  unfold resolvePending
  rw [hp]

theorem resolve_room {Msg : Type} {s : Subscription Msg} {m : Msg} (hp : s.pending = some m)
    (hc : s.qClosed = false) (hroom : s.queue.length < queueCap) :
    resolvePending s = { s with queue := s.queue ++ [m],
                                entered := s.entered ++ [m], pending := none } := by
  unfold resolvePending
  split
  · rename_i heq
    rw [heq] at hp
    cases hp
  · rename_i m' heq
    rw [heq] at hp
    injection hp with hp
    subst hp
    rw [if_neg (by rw [hc]; exact Bool.false_ne_true), if_pos hroom]

theorem resolve_full {Msg : Type} {s : Subscription Msg} {m : Msg} (hp : s.pending = some m)
    (hc : s.qClosed = false) (hroom : ¬ s.queue.length < queueCap) :
    resolvePending s = s := by
  unfold resolvePending
  split
  any_goals rfl
  rename_i m' heq
  rw [heq] at hp
  injection hp with hp
  subst hp
  rw [if_neg (by rw [hc]; exact Bool.false_ne_true), if_neg hroom]

theorem workerStep_deliver {Msg : Type} {s : Subscription Msg} (hd : s.workerDone = false)
    {m : Msg} {rest : List Msg} (hq : s.queue = m :: rest) :
    (workerStep s).2 = { s with queue := rest, delivered := s.delivered ++ [m] } := by
  unfold workerStep
  rw [if_neg (by rw [hd]; exact Bool.false_ne_true), hq]

theorem workerStep_wait {Msg : Type} {s : Subscription Msg} (hd : s.workerDone = false)
    (hq : s.queue = []) (hc : s.qClosed = false) : (workerStep s).2 = s := by
  unfold workerStep
  rw [if_neg (by rw [hd]; exact Bool.false_ne_true), hq]
  simp only
  rw [if_neg (by rw [hc]; exact Bool.false_ne_true)]

theorem workerStep_done_of_open {Msg : Type} {s : Subscription Msg} (hc : s.qClosed = false) :
    (workerStep s).2.workerDone = s.workerDone := by
  unfold workerStep
  by_cases h1 : s.workerDone = true
  · simp [h1]
  · simp only [if_neg h1]
    cases hq : s.queue with
    | nil =>
      simp only
      rw [if_neg (by rw [hc]; exact Bool.false_ne_true)]
    | cons m rest => simp

theorem drainStep_progress {Msg : Type} {s : Subscription Msg} (hinv : SubInv s)
    (hc : s.qClosed = false) (hd : s.workerDone = false)
    (hne : s.queue.length + s.pending.toList.length ≠ 0) :
    SubInv (drainStep s) ∧ (drainStep s).qClosed = false ∧
    (drainStep s).workerDone = false ∧ (drainStep s).pubLog = s.pubLog ∧
    (drainStep s).queue.length + (drainStep s).pending.toList.length + 1
      = s.queue.length + s.pending.toList.length := by
  obtain ⟨r1, r2, r3, r4, r5, r6, r7⟩ := resolvePending_fields s
  have hc₁ : (resolvePending s).qClosed = false := r3.trans hc
  have hd₁ : (resolvePending s).workerDone = false := r5.trans hd
  refine ⟨subInv_workerStep (subInv_resolvePending hinv),
    ((workerStep_fields (resolvePending s)).2.2.1).trans hc₁,
    (workerStep_done_of_open hc₁).trans hd₁,
    ((workerStep_fields (resolvePending s)).2.2.2.2.2.2).trans r7, ?_⟩
  cases hp : s.pending with
  | none =>
    have hres : resolvePending s = s := resolve_none hp
    cases hqq : s.queue with
    | nil =>
      rw [hp, hqq] at hne
      simp at hne
    | cons m rest =>
      have hds : drainStep s = { s with queue := rest, delivered := s.delivered ++ [m] } := by
        unfold drainStep
        rw [hres, workerStep_deliver hd hqq]
      rw [hds, hp]
      simp
  | some m =>
    by_cases hroom : s.queue.length < queueCap
    · have hres := resolve_room hp hc hroom
      cases hqq : s.queue ++ [m] with
      | nil => simp at hqq
      | cons m₀ rest =>
        have hd' : (resolvePending s).workerDone = false := hd₁
        have hds : drainStep s = { s with
              queue := rest, delivered := s.delivered ++ [m₀],
              entered := s.entered ++ [m], pending := none } := by
          unfold drainStep
          rw [hres]
          rw [workerStep_deliver (by rw [hres] at hd'; exact hd') (show _ = m₀ :: rest from hqq)]
        rw [hds]
        have hlen := congrArg List.length hqq
        simp only [List.length_append, List.length_cons, List.length_nil] at hlen
        simp only [Option.toList_some, Option.toList_none, List.length_cons, List.length_nil]
        omega
    · have hres := resolve_full hp hc hroom
      have hq0 : s.queue.length ≠ 0 := by
        have hge : queueCap ≤ s.queue.length := Nat.le_of_not_lt hroom
        simp only [queueCap] at hge
        omega
      cases hqq : s.queue with
      | nil => rw [hqq] at hq0; simp at hq0
      | cons m₀ rest =>
        have hds : drainStep s = { s with queue := rest, delivered := s.delivered ++ [m₀] } := by
          unfold drainStep
          rw [hres, workerStep_deliver hd hqq]
        rw [hds]
        simp [hp]

theorem drainN_complete {Msg : Type} :
    ∀ (n : Nat) (s : Subscription Msg), SubInv s → s.qClosed = false → s.workerDone = false →
      s.queue.length + s.pending.toList.length ≤ n →
      (drainN n s).delivered = s.pubLog := by
  intro n
  induction n with
  | zero =>
    intro s hinv hc hd hle
    have hq : s.queue = [] := by
      have : s.queue.length = 0 := by omega
      exact List.length_eq_zero.mp this
    have hp : s.pending = none := by
      cases hp : s.pending with
      | none => rfl
      | some m => rw [hp] at hle; simp at hle
    have hdeq := hinv.deq
    rw [hq, List.append_nil] at hdeq
    have hlive := hinv.liveLog hc
    rw [hp] at hlive
    simp only [Option.toList_none, List.append_nil] at hlive
    simp only [drainN]
    rw [hdeq, hlive]
  | succ n ih =>
    intro s hinv hc hd hle
    by_cases h0 : s.queue.length + s.pending.toList.length = 0
    · have hq : s.queue = [] := by
        have : s.queue.length = 0 := by omega
        exact List.length_eq_zero.mp this
      have hp : s.pending = none := by
        cases hp : s.pending with
        | none => rfl
        | some m => rw [hp] at h0; simp at h0
      have hds : drainStep s = s := by
        unfold drainStep
        rw [resolve_none hp, workerStep_wait hd hq hc]
      simp only [drainN]
      rw [hds]
      exact ih s hinv hc hd (by omega)
    · obtain ⟨p1, p2, p3, p4, p5⟩ := drainStep_progress hinv hc hd h0
      simp only [drainN]
      rw [← p4]
      exact ih (drainStep s) p1 p2 p3 (by omega)

/-! ### After the once-guard fires, nothing is appended to a subscription's log -/

theorem subInv_delivered_le {Msg : Type} {s : Subscription Msg} (h : SubInv s) :
    ∃ rest, s.delivered ++ rest = s.pubLog := by
  obtain ⟨r, hr⟩ := subInv_entered_le_pubLog h
  exact ⟨s.queue ++ r, by rw [← List.append_assoc, h.deq, hr]⟩

theorem publish_store {Msg : Type} {b : SubPub Msg} (hc : ¬ b.closed = true)
    (subject : String) (m : Msg) :
    (publish b subject m).2.store
      = (fanout m b.store ((mapLookup b.subs subject).getD [])).2 := by
  unfold publish
  rw [if_neg hc]
  show (match fanout m b.store ((mapLookup b.subs subject).getD []) with
      | (PubRes.panicked, store') =>
        (PubRes.panicked, { b with store := store', crashed := true })
      | (r, store') => (r, { b with store := store' })).2.store
    = (fanout m b.store ((mapLookup b.subs subject).getD [])).2
  cases hP : fanout m b.store ((mapLookup b.subs subject).getD []) with
  | mk r store' =>
    cases r <;> rfl

theorem frozen_step {Msg : Type} {b : SubPub Msg} (hInv : Inv b) {id : Nat}
    {s : Subscription Msg} (hs : b.store[id]? = some s) (hu : s.unsubbed = true)
    (a : Action Msg) :
    ∃ s', (applyAction b a).store[id]? = some s' ∧ s'.unsubbed = true ∧
      s'.pubLog = s.pubLog := by
  have hlt : id < b.store.length := (List.getElem?_eq_some.mp hs).1
  cases a with
  | sub subject hid =>
    simp only [applyAction, subscribe]
    by_cases hc : b.closed = true
    · rw [if_pos hc]
      exact ⟨s, hs, hu, rfl⟩
    · rw [if_neg hc]
      refine ⟨s, ?_, hu, rfl⟩
      simp only
      rw [List.getElem?_append, if_pos hlt]
      exact hs
  | pub subject m =>
    simp only [applyAction]
    by_cases hc : b.closed = true
    · refine ⟨s, ?_, hu, rfl⟩
      simp only [publish, if_pos hc]
      exact hs
    · have hnm : id ∉ (mapLookup b.subs subject).getD [] := by
        cases hl : mapLookup b.subs subject with
        | none => simp
        | some l =>
          simp only [Option.getD_some]
          exact hInv.unsubOut id s hs hu subject l hl
      refine ⟨s, ?_, hu, rfl⟩
      show (publish b subject m).2.store[id]? = some s
      rw [publish_store hc subject m, fanout_not_mem m _ b.store hnm]
      exact hs
  | unsub id₀ =>
    simp only [applyAction]
    rcases unsubscribe_store_get b id₀ id with hst | ⟨s₀, hi, hs₀, hu₀, hst⟩
    · exact ⟨s, hst.trans hs, hu, rfl⟩
    · subst hi
      rw [hs] at hs₀
      injection hs₀ with hs₀
      rw [← hs₀] at hu₀
      rw [hu] at hu₀
      cases hu₀
  | work id₀ =>
    simp only [applyAction]
    cases hs₀ : b.store[id₀]? with
    | none => exact ⟨s, hs, hu, rfl⟩
    | some s₀ =>
      by_cases hi : id = id₀
      · subst hi
        rw [hs] at hs₀
        injection hs₀ with hs₀
        subst hs₀
        refine ⟨(workerStep s).2, ?_, ?_, ?_⟩
        · simp only
          exact List.getElem?_set_self hlt
        · exact ((workerStep_fields s).2.2.2.1).trans hu
        · exact (workerStep_fields s).2.2.2.2.2.2
      · refine ⟨s, ?_, hu, rfl⟩
        simp only
        rw [List.getElem?_set_ne (fun hh => hi hh.symm)]
        exact hs
  | resolve id₀ =>
    simp only [applyAction]
    cases hs₀ : b.store[id₀]? with
    | none => exact ⟨s, hs, hu, rfl⟩
    | some s₀ =>
      by_cases hi : id = id₀
      · subst hi
        rw [hs] at hs₀
        injection hs₀ with hs₀
        subst hs₀
        refine ⟨resolvePending s, ?_, ?_, ?_⟩
        · simp only
          exact List.getElem?_set_self hlt
        · exact ((resolvePending_fields s).2.2.2.1).trans hu
        · exact (resolvePending_fields s).2.2.2.2.2.2
      · refine ⟨s, ?_, hu, rfl⟩
        simp only
        rw [List.getElem?_set_ne (fun hh => hi hh.symm)]
        exact hs
  | closeBegin =>
    simp only [applyAction, closeOp]
    by_cases hc : b.closed = true
    · rw [if_pos hc]
      exact ⟨s, hs, hu, rfl⟩
    · rw [if_neg hc]
      simp only
      rcases foldl_unsub_store (allIds b.subs)
          { b with closed := true, subs := ([] : List (String × List Nat)) } id with
        hf | ⟨s₀, hs₀, hu₀, hf⟩
      · exact ⟨s, hf.trans hs, hu, rfl⟩
      · have : b.store[id]? = some s₀ := hs₀
        rw [hs] at this
        injection this with this
        rw [← this] at hu₀
        rw [hu] at hu₀
        cases hu₀
  | closeRetOk =>
    simp only [applyAction]
    by_cases hg : (b.closed && allWorkersDone b) = true
    · rw [if_pos hg]
      exact ⟨s, hs, hu, rfl⟩
    · rw [if_neg hg]
      exact ⟨s, hs, hu, rfl⟩

theorem frozen_run {Msg : Type} :
    ∀ (t : List (Action Msg)) (b : SubPub Msg), Inv b →
      ∀ (id : Nat) (s : Subscription Msg), b.store[id]? = some s → s.unsubbed = true →
      ∃ s', (run b t).store[id]? = some s' ∧ s'.unsubbed = true ∧ s'.pubLog = s.pubLog := by
  intro t
  induction t with
  | nil => intro b _ id s hs hu; exact ⟨s, hs, hu, rfl⟩
  | cons a rest ih =>
    intro b hInv id s hs hu
    obtain ⟨s₁, hs₁, hu₁, hp₁⟩ := frozen_step hInv hs hu a
    obtain ⟨s₂, hs₂, hu₂, hp₂⟩ := ih (applyAction b a) (inv_apply hInv a) id s₁ hs₁ hu₁
    exact ⟨s₂, hs₂, hu₂, hp₂.trans hp₁⟩

/-! ### Once closed, always closed, and the subject map never grows -/

theorem unsubscribe_keys {Msg : Type} (b : SubPub Msg) (id₀ : Nat) :
    ∀ k, k ∈ ((unsubscribe b id₀).subs.map Prod.fst) → k ∈ (b.subs.map Prod.fst) := by
  unfold unsubscribe
  split
  · intro k hk
    exact hk
  · rename_i s heq
    split
    · intro k hk
      exact hk
    · intro k hk
      simp only at hk
      split at hk
      · exact hk
      · rename_i list heq2
        split at hk
        · exact keys_mapErase_subset _ _ k hk
        · rw [keys_mapSet_some _ _ list heq2] at hk
          exact hk

theorem closed_step {Msg : Type} {b : SubPub Msg} (hc : b.closed = true) (a : Action Msg) :
    (applyAction b a).closed = true ∧
    ∀ k, k ∈ ((applyAction b a).subs.map Prod.fst) → k ∈ (b.subs.map Prod.fst) := by
  cases a with
  | sub subject hid =>
    simp only [applyAction, subscribe, if_pos hc]
    exact ⟨hc, fun k hk => hk⟩
  | pub subject m =>
    simp only [applyAction, publish, if_pos hc]
    exact ⟨hc, fun k hk => hk⟩
  | unsub id =>
    refine ⟨((unsubscribe_frame b id).1).trans hc, unsubscribe_keys b id⟩
  | work id =>
    simp only [applyAction]
    cases hs : b.store[id]? with
    | none => exact ⟨hc, fun k hk => hk⟩
    | some s => exact ⟨hc, fun k hk => hk⟩
  | resolve id =>
    simp only [applyAction]
    cases hs : b.store[id]? with
    | none => exact ⟨hc, fun k hk => hk⟩
    | some s => exact ⟨hc, fun k hk => hk⟩
  | closeBegin =>
    simp only [applyAction, closeOp, if_pos hc]
    exact ⟨hc, fun k hk => hk⟩
  | closeRetOk =>
    simp only [applyAction]
    by_cases hg : (b.closed && allWorkersDone b) = true
    · rw [if_pos hg]
      exact ⟨hc, fun k hk => hk⟩
    · rw [if_neg hg]
      exact ⟨hc, fun k hk => hk⟩

theorem closed_run {Msg : Type} :
    ∀ (t : List (Action Msg)) (b : SubPub Msg), b.closed = true →
      (run b t).closed = true ∧
      ∀ k, k ∈ ((run b t).subs.map Prod.fst) → k ∈ (b.subs.map Prod.fst) := by
  intro t
  induction t with
  | nil => intro b hc; exact ⟨hc, fun k hk => hk⟩
  | cons a rest ih =>
    intro b hc
    obtain ⟨h1, h2⟩ := closed_step hc a
    obtain ⟨g1, g2⟩ := ih (applyAction b a) h1
    exact ⟨g1, fun k hk => h2 k (g2 k hk)⟩

/-! ### Publish succeeds and enqueues in order under a free lock -/

theorem run_append {Msg : Type} (b : SubPub Msg) (t1 t2 : List (Action Msg)) :
    run b (t1 ++ t2) = run (run b t1) t2 :=
  List.foldl_append ..

theorem enqueue_open {Msg : Type} {s : Subscription Msg} (hp : s.pending = none)
    (hc : s.qClosed = false) (m : Msg) :
    (enqueue s m).1 = EnqRes.sent ∨ (enqueue s m).1 = EnqRes.parked := by
  unfold enqueue
  split_ifs with h1 h2 h3
  · rw [hp] at h1
    simp at h1
  · rw [hc] at h2
    cases h2
  · exact Or.inl rfl
  · exact Or.inr rfl

theorem fanout_ok {Msg : Type} (m : Msg) :
    ∀ (ids : List Nat) (store : List (Subscription Msg)), ids.Nodup →
      (∀ id ∈ ids, (store[id]?.all fun s => s.pending.isNone && !s.qClosed) = true) →
      (fanout m store ids).1 = PubRes.ok := by
  intro ids
  induction ids with
  | nil => intro store _ _; rfl
  | cons id₀ rest ih =>
    intro store hnd hfree
    have hnd' : rest.Nodup := (List.nodup_cons.mp hnd).2
    have hnotin : id₀ ∉ rest := (List.nodup_cons.mp hnd).1
    simp only [fanout]
    split
    · exact ih store hnd' (fun id hid => hfree id (List.mem_cons_of_mem _ hid))
    · rename_i s hs
      have hcond := hfree id₀ (List.mem_cons_self ..)
      rw [hs] at hcond
      simp only [Option.all_some, Bool.and_eq_true, Bool.not_eq_true'] at hcond
      have hp : s.pending = none := Option.isNone_iff_eq_none.mp hcond.1
      have hc : s.qClosed = false := hcond.2
      have hrest : ∀ (s' : Subscription Msg), ∀ id ∈ rest,
          ((store.set id₀ s')[id]?.all fun t => t.pending.isNone && !t.qClosed) = true := by
        intro s' id hid
        rw [List.getElem?_set_ne (fun hh => hnotin (by rw [hh]; exact hid))]
        exact hfree id (List.mem_cons_of_mem _ hid)
      split
      · rename_i s' he
        exact ih (store.set id₀ s') hnd' (hrest s')
      · rename_i s' he
        exact ih (store.set id₀ s') hnd' (hrest s')
      · rename_i s' he
        rcases enqueue_open hp hc m with h | h <;> rw [he] at h <;> cases h
      · rename_i s' he
        rcases enqueue_open hp hc m with h | h <;> rw [he] at h <;> cases h

/-! ### The canonical single-subscriber schedule delivers everything in order -/

/-- State of the single subscription in the canonical FIFO schedule after
`ms` messages have been published and delivered. -/
def fifoSub {Msg : Type} (subj : String) (hid : Nat) (ms : List Msg) : Subscription Msg :=
  { subject := subj, hid := hid, queue := [], qClosed := false, pending := none,
    unsubbed := false, workerDone := false, delivered := ms, entered := ms, pubLog := ms }

/-- Bus state in the canonical FIFO schedule. -/
def fifoBus {Msg : Type} (subj : String) (hid : Nat) (ms : List Msg) : SubPub Msg :=
  { subs := [(subj, [0])], closed := false, store := [fifoSub subj hid ms],
    closedOk := false, crashed := false, pubReturns := List.replicate ms.length true }

theorem fifo_start {Msg : Type} (subj : String) (hid : Nat) :
    run (initBus : SubPub Msg) [Action.sub subj hid] = fifoBus subj hid [] := by
  simp [run, applyAction, subscribe, initBus, fifoBus, fifoSub, initSub, mapSet, mapLookup]

theorem fifo_step {Msg : Type} (subj : String) (hid : Nat) (ms₀ : List Msg) (m : Msg) :
    run (fifoBus subj hid ms₀) [Action.pub subj m, Action.work 0]
      = fifoBus subj hid (ms₀ ++ [m]) := by
  have h1 : mapLookup [(subj, [0])] subj = some [0] := by simp [mapLookup]
  have h2 : enqueue (fifoSub subj hid ms₀) m
      = (EnqRes.sent, { fifoSub subj hid ms₀ with
          queue := [m], entered := ms₀ ++ [m], pubLog := ms₀ ++ [m] }) := by
    unfold enqueue fifoSub
    simp [queueCap]
  have h3 : publish (fifoBus subj hid ms₀) subj m
      = (PubRes.ok, { fifoBus subj hid ms₀ with
          store := [{ fifoSub subj hid ms₀ with
            queue := [m], entered := ms₀ ++ [m], pubLog := ms₀ ++ [m] }] }) := by
    unfold publish fifoBus
    simp only [if_neg (by simp : ¬ false = true), h1, Option.getD_some]
    simp only [fanout]
    simp only [List.getElem?_cons_zero]
    rw [h2]
    rfl
  simp only [run, List.foldl_cons, List.foldl_nil]
  simp only [applyAction, h3]
  have h4 : workerStep { fifoSub subj hid ms₀ with
      queue := [m], entered := ms₀ ++ [m], pubLog := ms₀ ++ [m] }
      = (WorkRes.invoked, { fifoSub subj hid ms₀ with
          queue := [], delivered := ms₀ ++ [m], entered := ms₀ ++ [m],
          pubLog := ms₀ ++ [m] }) := by
    unfold workerStep fifoSub
    simp
  simp only [List.getElem?_cons_zero]
  rw [h4]
  simp only [fifoBus, fifoSub, List.length_append, List.length_cons, List.length_nil]
  congr 1
  rw [List.replicate_succ']
  simp

theorem fifo_run {Msg : Type} (subj : String) (hid : Nat) (ms : List Msg) :
    ∀ ms₀ : List Msg,
      run (fifoBus subj hid ms₀) (ms.flatMap fun m => [Action.pub subj m, Action.work 0])
        = fifoBus subj hid (ms₀ ++ ms) := by
  induction ms with
  | nil => intro ms₀; simp [run]
  | cons m rest ih =>
    intro ms₀
    rw [List.flatMap_cons, run_append, fifo_step, ih (ms₀ ++ [m])]
    simp

/-! ### The claims -/

/-- C1: FIFO per subscriber.  In every interleaving reachable from the
fresh bus, a subscription's handler-invocation history `delivered` is a
prefix of `pubLog`, the per-subscriber serialization of the messages its
`enqueue` accepted in order (the `sendMu` lock held across the
non-blocking/blocking split is what forbids any other interleaving of the
two insert paths in the model); while the subscription is live, letting
its parked overflow goroutine and its worker run to completion (`drainN`)
invokes the handler with exactly the accepted sequence in order; and under
the canonical schedule that publishes an arbitrary list `ms` of messages
to a freshly subscribed handler while its worker runs, the handler is
invoked with exactly `ms`, in publication order. -/
theorem claim_C1_fifo {Msg : Type} (t : List (Action Msg)) (id : Nat)
    (s : Subscription Msg) (hs : (run initBus t).store[id]? = some s) :
    (∃ rest, s.delivered ++ rest = s.pubLog) ∧
    (s.qClosed = false →
      (drainN (s.queue.length + s.pending.toList.length) s).delivered = s.pubLog) ∧
    (∀ (subj : String) (hid : Nat) (ms : List Msg),
      ∃ s', (run initBus ([Action.sub subj hid]
          ++ ms.flatMap (fun m => [Action.pub subj m, Action.work 0]))).store[0]? = some s' ∧
        s'.delivered = ms ∧ s'.pubLog = ms) := by
  have hInv := inv_run_init t
  have hsub := hInv.subInv id s hs
  refine ⟨subInv_delivered_le hsub, ?_, ?_⟩
  · intro hc
    have hd : s.workerDone = false := by
      cases hw : s.workerDone
      · rfl
      · obtain ⟨hq, -⟩ := hInv.doneClosed id s hs hw
        rw [hq] at hc
        cases hc
    exact drainN_complete _ s hsub hc hd (le_refl _)
  · intro subj hid ms
    refine ⟨fifoSub subj hid ms, ?_, rfl, rfl⟩
    rw [run_append, fifo_start, fifo_run subj hid ms []]
    rfl

def c1T : List (Action Nat) := [Action.sub "S" 0, Action.pub "S" 1, Action.pub "S" 2]

def c1S : Subscription Nat :=
  { subject := "S", hid := 0, queue := [1, 2], qClosed := false, pending := none,
    unsubbed := false, workerDone := false, delivered := [], entered := [1, 2],
    pubLog := [1, 2] }

/-- Witness for C1 at a concrete run: subscribe, publish 1 then 2. -/
theorem claim_C1_fifo_witness :
    (∃ rest, c1S.delivered ++ rest = c1S.pubLog) ∧
    (c1S.qClosed = false →
      (drainN (c1S.queue.length + c1S.pending.toList.length) c1S).delivered = c1S.pubLog) ∧
    (∀ (subj : String) (hid : Nat) (ms : List Nat),
      ∃ s', (run initBus ([Action.sub subj hid]
          ++ ms.flatMap (fun m => [Action.pub subj m, Action.work 0]))).store[0]? = some s' ∧
        s'.delivered = ms ∧ s'.pubLog = ms) :=
  claim_C1_fifo c1T 0 c1S (by decide)

/-- C2: the claim says an enqueue that races with a concurrent close
fails silently on both insert paths.  In the code the `recover` only
guards the detached blocking-insert goroutine; on the non-blocking fast
path the `select`'s send case is ready on a closed channel and proceeds
by panicking with no `recover` in scope, crashing the `Publish` caller.
This theorem evaluates that failing interleaving: one subscription on
"t"; `Publish("t", 5)` snapshots it, `Unsubscribe` then closes its
channel, and the fan-out's `enqueue` panics, leaving the process crashed;
the third conjunct isolates the fast path itself on a closed queue. -/
theorem claim_C2_closed_enqueue_crashes :
    (publishRace (run initBus [Action.sub "t" 0]) "t" (5 : Nat) 0).1 = PubRes.panicked ∧
    (publishRace (run initBus [Action.sub "t" 0]) "t" (5 : Nat) 0).2.crashed = true ∧
    (enqueue { subject := "t", hid := 0, queue := [], qClosed := true, pending := none,
               unsubbed := true, workerDone := false, delivered := [], entered := [],
               pubLog := ([] : List Nat) } 5).1 = EnqRes.panicked := by
  decide

set_option maxRecDepth 20000 in
/-- C3 counterexample: one subscription on "S"; 65 publishes all return
nil (message 64 is parked in the detached overflow goroutine because the
64-slot buffer is full); `Close` begins, closing the queue and thereby
dropping the parked message; the worker drains the 64 buffered messages
and exits; the waiting `Close` then returns nil (`closedOk`).  Every
publish returned nil before `Close` was called, yet message 64 — accepted
by `enqueue` into `pubLog` — was never delivered. -/
theorem claim_C3_counterexample :
    (run initBus ([Action.sub "S" 0] ++ (List.range 65).map (fun i => Action.pub "S" i)
      ++ [Action.closeBegin] ++ List.replicate 65 (Action.work 0)
      ++ [Action.closeRetOk])).closedOk = true ∧
    (run initBus ([Action.sub "S" 0] ++ (List.range 65).map (fun i => Action.pub "S" i)
      ++ [Action.closeBegin] ++ List.replicate 65 (Action.work 0)
      ++ [Action.closeRetOk])).pubReturns = List.replicate 65 true ∧
    ((run initBus ([Action.sub "S" 0] ++ (List.range 65).map (fun i => Action.pub "S" i)
      ++ [Action.closeBegin] ++ List.replicate 65 (Action.work 0)
      ++ [Action.closeRetOk])).store[0]?).map (fun s => s.pubLog) = some (List.range 65) ∧
    ((run initBus ([Action.sub "S" 0] ++ (List.range 65).map (fun i => Action.pub "S" i)
      ++ [Action.closeBegin] ++ List.replicate 65 (Action.work 0)
      ++ [Action.closeRetOk])).store[0]?).map (fun s => s.delivered) = some (List.range 64) := by
  decide

/-- C3 amended: whenever `Close` has returned nil, every message that
ever entered a subscription's queue has been delivered to its handler
(`delivered = entered`), and what entered is a prefix of what `enqueue`
accepted — a message still parked in the detached overflow goroutine when
the queue closed is dropped, which is the only possible shortfall. -/
theorem claim_C3_close_drains {Msg : Type} (t : List (Action Msg))
    (hok : (run initBus t).closedOk = true) (id : Nat) (s : Subscription Msg)
    (hs : (run initBus t).store[id]? = some s) :
    s.delivered = s.entered ∧ ∃ rest, s.entered ++ rest = s.pubLog := by
  have hInv := inv_run_init t
  have hw := hInv.okDone hok id s hs
  obtain ⟨hc, hq⟩ := hInv.doneClosed id s hs hw
  have hdeq := (hInv.subInv id s hs).deq
  rw [hq, List.append_nil] at hdeq
  exact ⟨hdeq, subInv_entered_le_pubLog (hInv.subInv id s hs)⟩

def c3T : List (Action Nat) :=
  [Action.sub "S" 0, Action.pub "S" 7, Action.closeBegin,
   Action.work 0, Action.work 0, Action.closeRetOk]

def c3S : Subscription Nat :=
  { subject := "S", hid := 0, queue := [], qClosed := true, pending := none,
    unsubbed := true, workerDone := true, delivered := [7], entered := [7], pubLog := [7] }

/-- Witness for the amended C3 at a concrete run. -/
theorem claim_C3_close_drains_witness :
    c3S.delivered = c3S.entered ∧ ∃ rest, c3S.entered ++ rest = c3S.pubLog :=
  claim_C3_close_drains c3T (by decide) 0 c3S (by decide)

/-- C4: after any `Close` call has returned — whichever of the three
results it produced — the bus's `closed` flag is set and stays set for
the rest of any run, and on a closed bus every `Subscribe` fails with
`ErrClosed` registering nothing and starting no worker, and every
`Publish` fails with `ErrClosed` enqueuing nothing: both return the bus
state completely unchanged. -/
theorem claim_C4_post_close_rejection {Msg : Type} (b : SubPub Msg) (t : List (Action Msg)) :
    ((applyAction b Action.closeBegin).closed = true) ∧
    ((run (applyAction b Action.closeBegin) t).closed = true) ∧
    (∀ b' : SubPub Msg, b'.closed = true →
      (∀ (subj : String) (hid : Nat), subscribe b' subj hid = (none, b')) ∧
      (∀ (subj : String) (m : Msg), publish b' subj m = (PubRes.errClosed, b'))) := by
  have h1 : (applyAction b Action.closeBegin).closed = true := by
    simp only [applyAction, closeOp]
    by_cases hc : b.closed = true
    · rw [if_pos hc]
      exact hc
    · rw [if_neg hc]
      exact (foldl_unsub_frame (allIds b.subs)
        { b with closed := true, subs := ([] : List (String × List Nat)) }).1
  refine ⟨h1, (closed_run t _ h1).1, ?_⟩
  intro b' hb
  constructor
  · intro subj hid
    simp [subscribe, hb]
  · intro subj m
    simp [publish, hb]

/-- Witness for C4: the bus closed by an initial `Close` rejects both calls. -/
theorem claim_C4_post_close_rejection_witness :
    subscribe (run (initBus : SubPub Nat) [Action.closeBegin]) "x" 0
      = (none, run (initBus : SubPub Nat) [Action.closeBegin]) ∧
    publish (run (initBus : SubPub Nat) [Action.closeBegin]) "x" (3 : Nat)
      = (PubRes.errClosed, run (initBus : SubPub Nat) [Action.closeBegin]) := by
  have h := claim_C4_post_close_rejection (initBus : SubPub Nat) ([] : List (Action Nat))
  have h2 := h.2.2 (run (initBus : SubPub Nat) [Action.closeBegin]) (by decide)
  exact ⟨h2.1 "x" 0, h2.2 "x" 3⟩

/-- C5: `Close` is idempotent-once.  A call on an already-closed bus
returns `ErrClosed` with the state untouched; the first call on an open
bus returns no immediate error, marks the bus closed, clears the subject
map and leaves every stored subscription unsubscribed with a closed
queue; and the waiting close can only return nil (`closedOk`) when every
worker across the bus's lifetime has finished — the model's rendering of
`wg.Wait()` winning the select against `ctx.Done()`. -/
theorem claim_C5_close_idempotent_once {Msg : Type} (t0 : List (Action Msg)) :
    ((run initBus t0).closed = true →
      closeOp (run initBus t0) = (some CloseRes.errClosed, run initBus t0)) ∧
    ((run initBus t0).closed = false →
      (closeOp (run initBus t0)).1 = none ∧
      (closeOp (run initBus t0)).2.closed = true ∧
      (closeOp (run initBus t0)).2.subs = [] ∧
      (∀ (id : Nat) s, (closeOp (run initBus t0)).2.store[id]? = some s →
        s.unsubbed = true ∧ s.qClosed = true)) ∧
    (∀ b' : SubPub Msg, (applyAction b' Action.closeRetOk).closedOk = true →
      b'.closedOk = true ∨ (b'.closed = true ∧ allWorkersDone b' = true)) := by
  refine ⟨?_, ?_, ?_⟩
  · intro hc
    simp [closeOp, hc]
  · intro hc
    have hcn : ¬ (run initBus t0).closed = true := by
      rw [hc]
      exact Bool.false_ne_true
    have hInv' : Inv (applyAction (run initBus t0) Action.closeBegin) :=
      inv_apply (inv_run_init t0) Action.closeBegin
    have hclosed' : (applyAction (run initBus t0) Action.closeBegin).closed = true := by
      simp only [applyAction, closeOp, if_neg hcn]
      exact (foldl_unsub_frame (allIds (run initBus t0).subs)
        { run initBus t0 with closed := true, subs := ([] : List (String × List Nat)) }).1
    refine ⟨?_, ?_, ?_, ?_⟩
    · unfold closeOp
      rw [if_neg hcn]
    · exact hclosed'
    · show (applyAction (run initBus t0) Action.closeBegin).subs = []
      exact hInv'.closedMap hclosed'
    · intro id s hs
      have hs' : (applyAction (run initBus t0) Action.closeBegin).store[id]? = some s := hs
      have hu := hInv'.closedUnsub hclosed' id s hs'
      exact ⟨hu, (hInv'.unsubEq id s hs').symm.trans hu⟩
  · intro b' hok
    by_cases hg : (b'.closed && allWorkersDone b') = true
    · rw [Bool.and_eq_true] at hg
      exact Or.inr hg
    · simp only [applyAction, if_neg hg] at hok
      exact Or.inl hok

/-- Witness for C5: the first close of a one-subscriber bus. -/
theorem claim_C5_close_idempotent_once_witness :
    (closeOp (run (initBus : SubPub Nat) [Action.sub "a" 0])).1 = none ∧
    (closeOp (run (initBus : SubPub Nat) [Action.sub "a" 0])).2.closed = true ∧
    (closeOp (run (initBus : SubPub Nat) [Action.sub "a" 0])).2.subs = [] := by
  have h := (claim_C5_close_idempotent_once ([Action.sub "a" 0] : List (Action Nat))).2.1
    (by decide)
  exact ⟨h.1, h.2.1, h.2.2.1⟩

/-- C6: once the `closed` flag is true it stays true under every further
operation, and from that point on the subject map never gains an entry:
every key present later was already present. -/
theorem claim_C6_closed_monotone {Msg : Type} (b : SubPub Msg) (t : List (Action Msg))
    (hc : b.closed = true) :
    (run b t).closed = true ∧
    ∀ k, k ∈ ((run b t).subs.map Prod.fst) → k ∈ (b.subs.map Prod.fst) :=
  closed_run t b hc

/-- Witness for C6 on a closed bus that is then poked further. -/
theorem claim_C6_closed_monotone_witness :
    (run (run (initBus : SubPub Nat) [Action.sub "a" 0, Action.closeBegin])
      [Action.sub "b" 1, Action.pub "a" 5]).closed = true ∧
    ∀ k, k ∈ (((run (run (initBus : SubPub Nat) [Action.sub "a" 0, Action.closeBegin])
        [Action.sub "b" 1, Action.pub "a" 5]).subs).map Prod.fst) →
      k ∈ (((run (initBus : SubPub Nat) [Action.sub "a" 0, Action.closeBegin]).subs).map Prod.fst) :=
  claim_C6_closed_monotone _ _ (by decide)

/-- C7: once `Unsubscribe` has returned (the once-guard has fired), the
subscription's accepted log `pubLog` is frozen for the remainder of every
run — no later `Publish` reaches it, because it was removed from the
registry before its queue was closed — and every handler invocation ever
made on it is of a message from that frozen log, in order.  Messages
already in flight may still be delivered; nothing published afterwards
ever is. -/
theorem claim_C7_unsubscribe_finality {Msg : Type} (t0 t : List (Action Msg)) (id : Nat)
    (s : Subscription Msg) (hs : (run initBus t0).store[id]? = some s)
    (hu : s.unsubbed = true) :
    ∃ s', (run (run initBus t0) t).store[id]? = some s' ∧ s'.unsubbed = true ∧
      s'.pubLog = s.pubLog ∧ ∃ rest, s'.delivered ++ rest = s.pubLog := by
  have hInv := inv_run_init t0
  obtain ⟨s', hs', hu', hp'⟩ := frozen_run t (run initBus t0) hInv id s hs hu
  have hInv' : Inv (run (run initBus t0) t) := inv_run hInv t
  obtain ⟨rest, hrest⟩ := subInv_delivered_le (hInv'.subInv id s' hs')
  rw [hp'] at hrest
  exact ⟨s', hs', hu', hp', rest, hrest⟩

def c7S : Subscription Nat :=
  { subject := "S", hid := 0, queue := [1], qClosed := true, pending := none,
    unsubbed := true, workerDone := false, delivered := [], entered := [1], pubLog := [1] }

/-- Witness for C7: unsubscribe with message 1 in flight, then publish 2. -/
theorem claim_C7_unsubscribe_finality_witness :
    ∃ s', (run (run initBus [Action.sub "S" 0, Action.pub "S" 1, Action.unsub 0])
      [Action.pub "S" 2, Action.work 0]).store[0]? = some s' ∧ s'.unsubbed = true ∧
      s'.pubLog = c7S.pubLog ∧ ∃ rest, s'.delivered ++ rest = c7S.pubLog :=
  claim_C7_unsubscribe_finality [Action.sub "S" 0, Action.pub "S" 1, Action.unsub 0]
    [Action.pub "S" 2, Action.work 0] 0 c7S (by decide) (by decide)

/-- C8: `Unsubscribe` is idempotent and returns nothing.  A repeat call
on an already-unsubscribed handle is an exact no-op; the first call
removes the handle from its subject's registry entry by swap-remove —
deleting the entry precisely when the handle was its only member — and
closes its queue; and after `Close` has torn all subscriptions down, a
user's `Unsubscribe` call is likewise an exact no-op. -/
theorem claim_C8_unsubscribe_idempotent {Msg : Type} (t0 : List (Action Msg)) (id : Nat) :
    (∀ s : Subscription Msg, (run initBus t0).store[id]? = some s → s.unsubbed = true →
      unsubscribe (run initBus t0) id = run initBus t0) ∧
    (∀ s : Subscription Msg, (run initBus t0).store[id]? = some s → s.unsubbed = false →
      ∃ l, mapLookup (run initBus t0).subs s.subject = some l ∧ id ∈ l ∧
        (unsubscribe (run initBus t0) id).store[id]?
          = some (closeQueue { s with unsubbed := true }) ∧
        mapLookup (unsubscribe (run initBus t0) id).subs s.subject
          = (if l = [id] then none else some (swapRemove l id))) ∧
    ((run initBus t0).closed = true → unsubscribe (run initBus t0) id = run initBus t0) := by
  have hInv := inv_run_init t0
  refine ⟨?_, ?_, ?_⟩
  · intro s hs hu
    exact unsubscribe_noop hs hu
  · intro s hs hu
    obtain ⟨l, hl, hmem⟩ := hInv.liveIn id s hs hu
    refine ⟨l, hl, hmem, unsubscribe_get_self hs hu, ?_⟩
    rw [unsubscribe_eq hs hu hl]
    by_cases hcase : swapRemove l id = []
    · rw [if_pos hcase, if_pos ((swapRemove_eq_nil_iff hmem).mp hcase)]
      exact mapLookup_mapErase_self _ _ hInv.keysNodup
    · rw [if_neg hcase, if_neg (fun hh => hcase ((swapRemove_eq_nil_iff hmem).mpr hh))]
      exact mapLookup_mapSet_self ..
  · intro hc
    cases hs : (run initBus t0).store[id]? with
    | none => exact unsubscribe_none hs
    | some s => exact unsubscribe_noop hs (hInv.closedUnsub hc id s hs)

/-- Witness for C8: first unsubscribe of the only subscriber of "S". -/
theorem claim_C8_unsubscribe_idempotent_witness :
    ∃ l, mapLookup (run (initBus : SubPub Nat) [Action.sub "S" 0]).subs
        ((initSub "S" 0 : Subscription Nat)).subject = some l ∧ 0 ∈ l ∧
      (unsubscribe (run (initBus : SubPub Nat) [Action.sub "S" 0]) 0).store[0]?
        = some (closeQueue { (initSub "S" 0 : Subscription Nat) with unsubbed := true }) ∧
      mapLookup (unsubscribe (run (initBus : SubPub Nat) [Action.sub "S" 0]) 0).subs
        ((initSub "S" 0 : Subscription Nat)).subject
        = (if l = [0] then none else some (swapRemove l 0)) :=
  (claim_C8_unsubscribe_idempotent [Action.sub "S" 0] 0).2.1 (initSub "S" 0)
    (by decide) (by decide)

def c9B : SubPub Nat :=
  run initBus ([Action.sub "T" 0, Action.sub "T" 1]
    ++ (List.range 65).flatMap (fun i => [Action.pub "T" i, Action.work 1]))

set_option maxRecDepth 20000 in
/-- C9 counterexample: subscriber 0's handler never runs (its worker
takes no steps), so 64 published messages fill its buffer and the 65th is
parked in the detached overflow goroutine, which holds `sendMu`.  The
66th `Publish` then blocks inside subscriber 0's `enqueue` on
`sendMu.Lock()` — it does not return — and the fast subscriber 1, whose
queue is empty, does not receive the message: a blocking handler on one
subscription delays both the return of `Publish` and delivery to another
subscription. -/
theorem claim_C9_counterexample :
    (publish c9B "T" 65).1 = PubRes.blocked ∧
    ((publish c9B "T" 65).2.store[1]?).map (fun s => s.queue) = some [] ∧
    ((publish c9B "T" 65).2.store[1]?).map (fun s => s.pubLog) = some (List.range 65) ∧
    ((c9B.store[0]?).map (fun s => (s.pending, s.queue.length))) = some (some 64, 64) := by
  decide

/-- C9 amended: while no subscription in the subject's snapshot has a
parked overflow insert (its `sendMu` is free) and all their queues are
open, `Publish` returns nil without blocking — a full queue alone is
absorbed by parking the message, never by blocking the publisher — and a
worker step of one subscription never changes any other subscription's
state.  Only a second overflow publish to the same slow subscriber (at
least 66 unconsumed messages) blocks, as exhibited by the counterexample. -/
theorem claim_C9_noninterference {Msg : Type} (b : SubPub Msg) (subj : String) (m : Msg)
    (hc : b.closed = false)
    (hnd : ((mapLookup b.subs subj).getD []).Nodup)
    (hfree : ∀ id ∈ (mapLookup b.subs subj).getD [],
      (b.store[id]?.all fun s => s.pending.isNone && !s.qClosed) = true) :
    (publish b subj m).1 = PubRes.ok ∧
    (∀ (id id' : Nat), id ≠ id' →
      (applyAction b (Action.work id)).store[id']? = b.store[id']?) := by
  constructor
  · have hfan := fanout_ok m ((mapLookup b.subs subj).getD []) b.store hnd hfree
    unfold publish
    rw [if_neg (by rw [hc]; exact Bool.false_ne_true)]
    show (match fanout m b.store ((mapLookup b.subs subj).getD []) with
        | (PubRes.panicked, store') =>
          (PubRes.panicked, { b with store := store', crashed := true })
        | (r, store') => (r, { b with store := store' })).1 = PubRes.ok
    cases hP : fanout m b.store ((mapLookup b.subs subj).getD []) with
    | mk r store' =>
      rw [hP] at hfan
      simp only at hfan
      subst hfan
      rfl
  · intro id id' hne
    simp only [applyAction]
    split
    · rfl
    · exact List.getElem?_set_ne hne

/-- Witness for the amended C9: two fresh subscribers on "T". -/
theorem claim_C9_noninterference_witness :
    (publish (run (initBus : SubPub Nat) [Action.sub "T" 0, Action.sub "T" 1]) "T" 5).1
      = PubRes.ok ∧
    (∀ (id id' : Nat), id ≠ id' →
      (applyAction (run (initBus : SubPub Nat) [Action.sub "T" 0, Action.sub "T" 1])
        (Action.work id)).store[id']?
        = (run (initBus : SubPub Nat) [Action.sub "T" 0, Action.sub "T" 1]).store[id']?) :=
  claim_C9_noninterference _ "T" 5 (by decide) (by decide) (by decide)

/-- C10: `Unsubscribe` on one live handle is local.  Every other
subscription's stored state — queue, closed flag, handler tag — is left
byte-for-byte unchanged; the bus's `closed` flag is unchanged; every
other subject's registry entry is unchanged; and the handle's own
subject entry is deleted exactly when the handle was its last member,
otherwise shrinking to the same members minus the handle. -/
theorem claim_C10_unsubscribe_frame {Msg : Type} (t0 : List (Action Msg)) (id : Nat)
    (s : Subscription Msg) (hs : (run initBus t0).store[id]? = some s)
    (hlive : s.unsubbed = false) :
    (∀ id' : Nat, id' ≠ id →
      (unsubscribe (run initBus t0) id).store[id']? = (run initBus t0).store[id']?) ∧
    ((unsubscribe (run initBus t0) id).closed = (run initBus t0).closed) ∧
    (∀ k, k ≠ s.subject → mapLookup (unsubscribe (run initBus t0) id).subs k
      = mapLookup (run initBus t0).subs k) ∧
    (∃ l, mapLookup (run initBus t0).subs s.subject = some l ∧ id ∈ l ∧
      (l = [id] → mapLookup (unsubscribe (run initBus t0) id).subs s.subject = none) ∧
      (l ≠ [id] → ∃ l', mapLookup (unsubscribe (run initBus t0) id).subs s.subject = some l' ∧
        l' ≠ [] ∧ ∀ id' : Nat, (id' ∈ l' ↔ (id' ∈ l ∧ id' ≠ id)))) := by
  have hInv := inv_run_init t0
  obtain ⟨l, hl, hmem⟩ := hInv.liveIn id s hs hlive
  have hnd := hInv.entryNodup _ l hl
  refine ⟨fun id' hne => unsubscribe_get_ne _ id id' hne, (unsubscribe_frame _ id).1, ?_, ?_⟩
  · intro k hk
    rw [unsubscribe_eq hs hlive hl]
    by_cases hcase : swapRemove l id = []
    · rw [if_pos hcase]
      exact mapLookup_mapErase_ne _ hk
    · rw [if_neg hcase]
      exact mapLookup_mapSet_ne _ _ hk
  · refine ⟨l, hl, hmem, ?_, ?_⟩
    · intro hone
      rw [unsubscribe_eq hs hlive hl]
      have hcase : swapRemove l id = [] := (swapRemove_eq_nil_iff hmem).mpr hone
      rw [if_pos hcase]
      exact mapLookup_mapErase_self _ _ hInv.keysNodup
    · intro hone
      have hcase : ¬ swapRemove l id = [] := fun hh => hone ((swapRemove_eq_nil_iff hmem).mp hh)
      rw [unsubscribe_eq hs hlive hl]
      refine ⟨swapRemove l id, ?_, hcase, fun id' => mem_swapRemove_iff hnd id'⟩
      rw [if_neg hcase]
      exact mapLookup_mapSet_self ..

/-- Witness for C10: unsubscribing the first of two subscribers on "S". -/
theorem claim_C10_unsubscribe_frame_witness :
    (∀ id' : Nat, id' ≠ 0 →
      (unsubscribe (run (initBus : SubPub Nat) [Action.sub "S" 0, Action.sub "S" 1]) 0).store[id']?
        = (run (initBus : SubPub Nat) [Action.sub "S" 0, Action.sub "S" 1]).store[id']?) ∧
    ((unsubscribe (run (initBus : SubPub Nat) [Action.sub "S" 0, Action.sub "S" 1]) 0).closed
      = (run (initBus : SubPub Nat) [Action.sub "S" 0, Action.sub "S" 1]).closed) ∧
    (∀ k, k ≠ ((initSub "S" 0 : Subscription Nat)).subject →
      mapLookup (unsubscribe (run (initBus : SubPub Nat)
        [Action.sub "S" 0, Action.sub "S" 1]) 0).subs k
      = mapLookup (run (initBus : SubPub Nat) [Action.sub "S" 0, Action.sub "S" 1]).subs k) ∧
    (∃ l, mapLookup (run (initBus : SubPub Nat) [Action.sub "S" 0, Action.sub "S" 1]).subs
        ((initSub "S" 0 : Subscription Nat)).subject = some l ∧ (0 : Nat) ∈ l ∧
      (l = [0] → mapLookup (unsubscribe (run (initBus : SubPub Nat)
          [Action.sub "S" 0, Action.sub "S" 1]) 0).subs
          ((initSub "S" 0 : Subscription Nat)).subject = none) ∧
      (l ≠ [0] → ∃ l', mapLookup (unsubscribe (run (initBus : SubPub Nat)
          [Action.sub "S" 0, Action.sub "S" 1]) 0).subs
          ((initSub "S" 0 : Subscription Nat)).subject = some l' ∧
        l' ≠ [] ∧ ∀ id' : Nat, (id' ∈ l' ↔ (id' ∈ l ∧ id' ≠ 0)))) :=
  claim_C10_unsubscribe_frame [Action.sub "S" 0, Action.sub "S" 1] 0 (initSub "S" 0)
    (by decide) (by decide)

end Subpub
